import Mathlib

/-!
# The ZGEBRD driver of `lapack-netlib/SRC/zgebrd.c`

A shallow embedding of the f2c translation of ZGEBRD, the blocked reduction of
a complex M-by-N matrix to bidiagonal form.

Conventions of the embedding.

* `integer` is `blasint`, which is `int` unless `LAPACK_ILP64` is defined: a
  32-bit signed integer.  Its values are modelled by `Int`.  The products
  `(*m + *n) * nb` (for `lwkopt` and `ws`) and `(*m + *n) * nbmin` are formed
  before or without a bound on their factors and exceed 32 bits on calls the
  routine can receive; they are reduced to the 32-bit two's-complement range
  by `wrap32`, which is what the compiled product leaves.  Since `wrap32` is
  taken of the whole product, reducing the sum `*m + *n` first makes no
  difference.  The remaining integer expressions (the divisor `*m + *n` of the
  shrink, the loop index, the sizes and the array indices handed to the
  callees) are bounded by the number of entries of the matrix, hence below
  `2^31` for every matrix that 32-bit indices can address; they are taken
  exact.
* `doublereal` is a type parameter `R`.  The driver performs no floating-point
  arithmetic of its own: it stores the constants `0.`, `1.`, `-1.`, converts one
  integer (`(doublereal) lwkopt`, `(doublereal) ws`) and copies values.  These
  are the operations `Zero`, `One`, `Neg` and `IntCast` required of `R`.
* The arrays `a`, `d__`, `e`, `tauq`, `taup`, `work` are functions from the
  index used in the body of the routine, i.e. the index AFTER the
  "Parameter adjustments" (`a -= a_offset; --d__; ...`), to the stored value.
  `a[i + j * a_dim1]` is therefore `mem.a (i + j * a_dim1)`.
* A pointer argument `&a[k]` handed to a callee is the pair of the array and
  the adjusted index `k`.
* `ilaenv_`, `xerbla_`, `zlabrd_`, `zgemm_` and `zgebd2_` are declared `extern`
  in the source and are parameters of the embedding (`Env`); every call is
  recorded, in order, in a trace.
* The main loop `for (i__ = 1; ...; i__ += nb)` need not terminate (its step can
  be zero); it is run with fuel and `none` stands for "no return".

A further source is embedded after the driver, with its own conventions
stated where it starts: the matrix-vector kernel of
`kernel/mips64/gemv_n_loongson3a.c`.
-/

namespace OpenBLAS

/-- The macro `f2cmin(a,b) ((a) <= (b) ? (a) : (b))`. -/
def f2cmin (a b : Int) : Int := if a ≤ b then a else b

/-- The macro `f2cmax(a,b) ((a) >= (b) ? (a) : (b))`. -/
def f2cmax (a b : Int) : Int := if a ≥ b then a else b

/-- The value a 32-bit two's-complement `integer` holds for the exact result
`x`: the representative of `x` modulo `2^32` in `-2^31 .. 2^31 - 1`. -/
def wrap32 (x : Int) : Int := (x + 2147483648) % 4294967296 - 2147483648

/-- The struct `typedef struct { doublereal r, i; } doublecomplex;`. -/
structure doublecomplex (R : Type) where
  r : R
  i : R
deriving DecidableEq, Repr

/-- The six array arguments of `zgebrd_`. -/
inductive Arr where
  | a | d | e | tauq | taup | work
deriving DecidableEq, Repr

/-- A pointer `&arr[idx]` (index after the parameter adjustments). -/
structure Ptr where
  arr : Arr
  idx : Int
deriving DecidableEq, Repr

/-- The contents of the six arrays. -/
structure Mem (R : Type) where
  a : Int → doublecomplex R
  d : Int → R
  e : Int → R
  tauq : Int → doublecomplex R
  taup : Int → doublecomplex R
  work : Int → doublecomplex R

/-- The assignment `f[k] = v`. -/
def store {α : Type} (f : Int → α) (k : Int) (v : α) : Int → α :=
  fun x => if x = k then v else f x

/-- A call of one of the routines declared `extern` in `zgebrd_`, with its
actual arguments in the order of the source. -/
inductive Call (R : Type) where
  | ilaenv_ (ispec : Int) (name opts : String) (n1 n2 n3 n4 : Int)
      (name_len opts_len : Int)
  | xerbla_ (srname : String) (info : Int) (srname_len : Int)
  | zlabrd_ (m n nb : Int) (a : Ptr) (lda : Int) (d e tauq taup x : Ptr)
      (ldx : Int) (y : Ptr) (ldy : Int)
  | zgemm_ (transa transb : String) (m n k : Int) (alpha : doublecomplex R)
      (a : Ptr) (lda : Int) (b : Ptr) (ldb : Int) (beta : doublecomplex R)
      (c : Ptr) (ldc : Int)
  | zgebd2_ (m n : Int) (a : Ptr) (lda : Int) (d e tauq taup work : Ptr)
deriving DecidableEq, Repr

/-- The routines that `zgebrd_` calls and whose code is not part of
`zgebrd.c`: the cost-model query `ilaenv_` (a function of its arguments), the
blocked reducer `zlabrd_`, the matrix multiply `zgemm_` and the unblocked
reducer `zgebd2_` (transformers of the arrays they are handed; `zgebd2_` also
returns `iinfo`). -/
structure Env (R : Type) where
  ilaenv_ : Int → String → String → Int → Int → Int → Int → Int → Int → Int
  zlabrd_ : Int → Int → Int → Ptr → Int → Ptr → Ptr → Ptr → Ptr → Ptr → Int →
    Ptr → Int → Mem R → Mem R
  zgemm_ : String → String → Int → Int → Int → doublecomplex R → Ptr → Int →
    Ptr → Int → doublecomplex R → Ptr → Int → Mem R → Mem R
  zgebd2_ : Int → Int → Ptr → Int → Ptr → Ptr → Ptr → Ptr → Ptr → Mem R →
    Mem R × Int

/-- The arrays together with the calls made so far, oldest first. -/
structure St (R : Type) where
  mem : Mem R
  trace : List (Call R)

/-- What a call of `zgebrd_` leaves behind: `*info`, the arrays and the calls
it made. -/
structure Out (R : Type) where
  info : Int
  mem : Mem R
  trace : List (Call R)

/-- The table constant `static doublecomplex c_b1 = {1.,0.};`. -/
def c_b1 {R : Type} [Zero R] [One R] : doublecomplex R := ⟨1, 0⟩

/-- The table constant `static integer c__1 = 1;`. -/
def c__1 : Int := 1

/-- The table constant `static integer c_n1 = -1;`. -/
def c_n1 : Int := -1

/-- The table constant `static integer c__3 = 3;`. -/
def c__3 : Int := 3

/-- The table constant `static integer c__2 = 2;`. -/
def c__2 : Int := 2

section Driver

variable {R : Type}

/-- The value of `ilaenv_(&ispec, "ZGEBRD", " ", m, n, &c_n1, &c_n1, (ftnlen)6, (ftnlen)1)`:
`ispec = 1` asks for the block size NB1, `ispec = 2` for the minimum block
size NBMIN, `ispec = 3` for the crossover point NX1. -/
def Env.query (env : Env R) (ispec m n : Int) : Int :=
  env.ilaenv_ ispec "ZGEBRD" " " m n c_n1 c_n1 6 1

/-- The trace entry of that `ilaenv_` call. -/
def queryCall (ispec m n : Int) : Call R :=
  Call.ilaenv_ ispec "ZGEBRD" " " m n c_n1 c_n1 6 1

/-- The assignment `work[k] = v`. -/
def Mem.setWork (mem : Mem R) (k : Int) (v : doublecomplex R) : Mem R :=
  { mem with work := store mem.work k v }

/-- The assignment `a[k] = v`. -/
def Mem.setA (mem : Mem R) (k : Int) (v : doublecomplex R) : Mem R :=
  { mem with a := store mem.a k v }

/-- The call `zlabrd_(&m, &n, &nb, a, lda, d, e, tauq, taup, x, &ldx, y, &ldy)`. -/
def St.zlabrd (env : Env R) (st : St R) (m n nb : Int) (a : Ptr) (lda : Int)
    (d e tauq taup x : Ptr) (ldx : Int) (y : Ptr) (ldy : Int) : St R :=
  { mem := env.zlabrd_ m n nb a lda d e tauq taup x ldx y ldy st.mem
    trace := st.trace ++ [Call.zlabrd_ m n nb a lda d e tauq taup x ldx y ldy] }

/-- The call `zgemm_(transa, transb, &m, &n, &k, &alpha, a, lda, b, ldb, &beta, c, ldc)`. -/
def St.zgemm (env : Env R) (st : St R) (transa transb : String) (m n k : Int)
    (alpha : doublecomplex R) (a : Ptr) (lda : Int) (b : Ptr) (ldb : Int)
    (beta : doublecomplex R) (c : Ptr) (ldc : Int) : St R :=
  { mem := env.zgemm_ transa transb m n k alpha a lda b ldb beta c ldc st.mem
    trace := st.trace ++ [Call.zgemm_ transa transb m n k alpha a lda b ldb beta c ldc] }

/-- The call `zgebd2_(&m, &n, a, lda, d, e, tauq, taup, work, &iinfo)`; the
driver never reads `iinfo`. -/
def St.zgebd2 (env : Env R) (st : St R) (m n : Int) (a : Ptr) (lda : Int)
    (d e tauq taup work : Ptr) : St R :=
  { mem := (env.zgebd2_ m n a lda d e tauq taup work st.mem).1
    trace := st.trace ++ [Call.zgebd2_ m n a lda d e tauq taup work] }

/-- The loop `for (j = i__; j <= i__3; ++j)` of the branch `*m >= *n`
(label L10): `a[j + j*a_dim1] = d__[j] + 0i`, `a[j + (j+1)*a_dim1] = e[j] + 0i`. -/
def copyUpper [Zero R] (a_dim1 i__3 : Int) (j : Int) (mem : Mem R) : Mem R :=
  if j ≤ i__3 then
    let mem1 := mem.setA (j + j * a_dim1) ⟨mem.d j, 0⟩
    let mem2 := mem1.setA (j + (j + 1) * a_dim1) ⟨mem1.e j, 0⟩
    copyUpper a_dim1 i__3 (j + 1) mem2
  else mem
termination_by (i__3 + 1 - j).toNat
decreasing_by omega

/-- The loop `for (j = i__; j <= i__3; ++j)` of the branch `*m < *n`
(label L20): `a[j + j*a_dim1] = d__[j] + 0i`, `a[j + 1 + j*a_dim1] = e[j] + 0i`. -/
def copyLower [Zero R] (a_dim1 i__3 : Int) (j : Int) (mem : Mem R) : Mem R :=
  if j ≤ i__3 then
    let mem1 := mem.setA (j + j * a_dim1) ⟨mem.d j, 0⟩
    let mem2 := mem1.setA (j + 1 + j * a_dim1) ⟨mem1.e j, 0⟩
    copyLower a_dim1 i__3 (j + 1) mem2
  else mem
termination_by (i__3 + 1 - j).toNat
decreasing_by omega

/-- The step "Copy diagonal and off-diagonal elements of B back into A" of
the iteration with panel start `i__`. -/
def copyBack [Zero R] (m n a_dim1 nb i__ : Int) (mem : Mem R) : Mem R :=
  if m ≥ n then copyUpper a_dim1 (i__ + nb - 1) i__ mem
  else copyLower a_dim1 (i__ + nb - 1) i__ mem

/-- The two `zgemm_` calls "Update the trailing submatrix A(i+ib:m,i+ib:n)". -/
def trailingUpdate [Zero R] [One R] [Neg R] (env : Env R)
    (m n lda nb ldwrkx ldwrky i__ : Int) (st : St R) : St R :=
  let a_dim1 := lda
  let i__3 := m - i__ - nb + 1
  let i__4 := n - i__ - nb + 1
  let z__1 : doublecomplex R := ⟨-1, 0⟩
  let st1 := st.zgemm env "No transpose" "Conjugate transpose" i__3 i__4 nb z__1
    ⟨Arr.a, i__ + nb + i__ * a_dim1⟩ lda ⟨Arr.work, ldwrkx * nb + nb + 1⟩ ldwrky
    c_b1 ⟨Arr.a, i__ + nb + (i__ + nb) * a_dim1⟩ lda
  st1.zgemm env "No transpose" "No transpose" i__3 i__4 nb z__1
    ⟨Arr.work, nb + 1⟩ ldwrkx ⟨Arr.a, i__ + (i__ + nb) * a_dim1⟩ lda
    c_b1 ⟨Arr.a, i__ + nb + (i__ + nb) * a_dim1⟩ lda

/-- The body of the main loop for panel start `i__`: `zlabrd_`, the two
`zgemm_` calls, the copy back. -/
def loopBody [Zero R] [One R] [Neg R] (env : Env R)
    (m n lda nb ldwrkx ldwrky i__ : Int) (st : St R) : St R :=
  let a_dim1 := lda
  let i__3 := m - i__ + 1
  let i__4 := n - i__ + 1
  let st1 := st.zlabrd env i__3 i__4 nb ⟨Arr.a, i__ + i__ * a_dim1⟩ lda
    ⟨Arr.d, i__⟩ ⟨Arr.e, i__⟩ ⟨Arr.tauq, i__⟩ ⟨Arr.taup, i__⟩
    ⟨Arr.work, 1⟩ ldwrkx ⟨Arr.work, ldwrkx * nb + 1⟩ ldwrky
  let st2 := trailingUpdate env m n lda nb ldwrkx ldwrky i__ st1
  { st2 with mem := copyBack m n a_dim1 nb i__ st2.mem }

/-- The test `i__2 < 0 ? i__ >= i__1 : i__ <= i__1` of the main loop. -/
def loopTest (i__2 i__ i__1 : Int) : Bool :=
  if i__2 < 0 then decide (i__ ≥ i__1) else decide (i__ ≤ i__1)

/-- The main loop
`for (i__ = 1; i__2 < 0 ? i__ >= i__1 : i__ <= i__1; i__ += i__2)` with
`i__2 = nb`, started at `i__`; returns the value of `i__` on exit with the
state, or `none` when the fuel does not suffice. -/
def mainLoop [Zero R] [One R] [Neg R] (env : Env R)
    (m n lda nb ldwrkx ldwrky i__1 : Int) : Nat → Int → St R → Option (Int × St R)
  | 0, _, _ => none
  | fuel + 1, i__, st =>
    if loopTest nb i__ i__1 then
      mainLoop env m n lda nb ldwrkx ldwrky i__1 fuel (i__ + nb)
        (loopBody env m n lda nb ldwrkx ldwrky i__ st)
    else some (i__, st)

/-- The values of `nb`, `nx`, `ws` with which the main loop is entered, and
the `ilaenv_` calls made to obtain them. -/
structure Blocking (R : Type) where
  nb : Int
  nx : Int
  ws : Int
  calls : List (Call R)

/-- The block-size selection between the quick return and the main loop;
`nb` is the value computed at entry (`f2cmax(1, ilaenv_(1, ...))`).  The
products `ws = (*m + *n) * nb` and `(*m + *n) * nbmin` are 32-bit; the divisor
of `nb = *lwork / (*m + *n)` is reached only with `1 < nb < min(m,n)`, where
`m + n <= m * n`, the number of entries of the matrix, and is taken exact. -/
def blocking (env : Env R) (m n lwork nb : Int) : Blocking R :=
  let minmn := f2cmin m n
  let ws := f2cmax m n
  if nb > 1 ∧ nb < minmn then
    let q3 := queryCall c__3 m n
    let nx := f2cmax nb (env.query c__3 m n)
    if nx < minmn then
      let ws := wrap32 ((m + n) * nb)
      if lwork < ws then
        let q2 := queryCall c__2 m n
        let nbmin := env.query c__2 m n
        if lwork ≥ wrap32 ((m + n) * nbmin) then
          { nb := Int.tdiv lwork (m + n), nx := nx, ws := ws, calls := [q3, q2] }
        else
          { nb := 1, nx := minmn, ws := ws, calls := [q3, q2] }
      else { nb := nb, nx := nx, ws := ws, calls := [q3] }
    else { nb := nb, nx := nx, ws := ws, calls := [q3] }
  else { nb := nb, nx := minmn, ws := ws, calls := [] }

/-- The value of `*info` after "Test the input parameters". -/
def checkArgs (m n lda lwork : Int) (lquery : Bool) : Int :=
  if m < 0 then -1
  else if n < 0 then -2
  else if lda < f2cmax 1 m then -4
  else if lwork < f2cmax (f2cmax 1 m) n ∧ ¬ lquery then -10
  else 0

/-- The subroutine `zgebrd_(m, n, a, lda, d__, e, tauq, taup, work, lwork, info)`.
`mem` holds the arrays on entry; the result is `none` when the main loop does
not finish within `fuel` tests of its condition.  `lwkopt = (*m + *n) * nb` is
a 32-bit product. -/
def zgebrd_ [Zero R] [One R] [Neg R] [IntCast R] (env : Env R) (fuel : Nat)
    (m n : Int) (lda : Int) (lwork : Int) (mem : Mem R) : Option (Out R) :=
  let a_dim1 := lda
  let tr0 : List (Call R) := [queryCall c__1 m n]
  let nb := f2cmax 1 (env.query c__1 m n)
  let lwkopt := wrap32 ((m + n) * nb)
  let mem1 := mem.setWork 1 ⟨((lwkopt : Int) : R), 0⟩
  let lquery : Bool := decide (lwork = -1)
  let info := checkArgs m n lda lwork lquery
  if info < 0 then
    some { info := info, mem := mem1, trace := tr0 ++ [Call.xerbla_ "ZGEBRD" (-info) 6] }
  else if lquery then
    some { info := info, mem := mem1, trace := tr0 }
  else
    let minmn := f2cmin m n
    if minmn = 0 then
      some { info := info, mem := mem1.setWork 1 ⟨1, 0⟩, trace := tr0 }
    else
      let ldwrkx := m
      let ldwrky := n
      let b := blocking env m n lwork nb
      match mainLoop env m n lda b.nb ldwrkx ldwrky (minmn - b.nx) fuel 1
          { mem := mem1, trace := tr0 ++ b.calls } with
      | none => none
      | some (i__, st) =>
        let st1 := st.zgebd2 env (m - i__ + 1) (n - i__ + 1)
          ⟨Arr.a, i__ + i__ * a_dim1⟩ lda ⟨Arr.d, i__⟩ ⟨Arr.e, i__⟩
          ⟨Arr.tauq, i__⟩ ⟨Arr.taup, i__⟩ ⟨Arr.work, 1⟩
        some { info := info, mem := st1.mem.setWork 1 ⟨((b.ws : Int) : R), 0⟩,
               trace := st1.trace }

/-- The calls of the panel reducers and of the matrix multiply. -/
def Call.isCompute : Call R → Bool
  | Call.zlabrd_ .. => true
  | Call.zgemm_ .. => true
  | Call.zgebd2_ .. => true
  | _ => false

/-- The calls of the error reporter. -/
def Call.isXerbla : Call R → Bool
  | Call.xerbla_ .. => true
  | _ => false

/-- The arrays `a`, `d__`, `e`, `tauq`, `taup` of two memories agree. -/
def Mem.sameOutputs (mem1 mem2 : Mem R) : Prop :=
  mem1.a = mem2.a ∧ mem1.d = mem2.d ∧ mem1.e = mem2.e ∧
    mem1.tauq = mem2.tauq ∧ mem1.taup = mem2.taup

/-- The flat index of the off-diagonal neighbour of `A(j,j)`: the
superdiagonal entry `A(j,j+1)` when `m >= n`, the subdiagonal entry `A(j+1,j)`
when `m < n`. -/
def offDiag (m n lda j : Int) : Int :=
  if m ≥ n then j + (j + 1) * lda else j + 1 + j * lda

/-- The two copy loops as one loop over the index maps `dg` (diagonal) and
`off` (off-diagonal); used to reason about both at once. -/
def copyGen [Zero R] (dg off : Int → Int) (i__3 : Int) (j : Int) (mem : Mem R) : Mem R :=
  if j ≤ i__3 then
    copyGen dg off i__3 (j + 1)
      ((mem.setA (dg j) ⟨mem.d j, 0⟩).setA (off j) ⟨mem.e j, 0⟩)
  else mem
termination_by (i__3 + 1 - j).toNat
decreasing_by omega

/-- The index `k` addresses an entry of the `rows`-by-`cols` matrix stored at
`&a[p]` with leading dimension `lda`. -/
def inSub (lda p rows cols k : Int) : Prop :=
  ∃ r c : Int, 0 ≤ r ∧ r < rows ∧ 0 ≤ c ∧ c < cols ∧ k = p + r + c * lda

/-- Assumption on the blocked reducer: `zlabrd_`, handed the `m`-by-`n`
submatrix at `&a[p]` and `&d[i]`, `&e[i]`, writes `a` only inside that
submatrix and `d`, `e` only from index `i` on. -/
def Env.zlabrdFrame (env : Env R) : Prop :=
  ∀ (m n nb : Int) (a : Ptr) (lda : Int) (d e tauq taup x : Ptr) (ldx : Int) (y : Ptr)
    (ldy : Int) (mem : Mem R), a.arr = Arr.a → d.arr = Arr.d → e.arr = Arr.e →
    (∀ k, ¬ inSub lda a.idx m n k →
      (env.zlabrd_ m n nb a lda d e tauq taup x ldx y ldy mem).a k = mem.a k) ∧
    (∀ k, k < d.idx → (env.zlabrd_ m n nb a lda d e tauq taup x ldx y ldy mem).d k = mem.d k) ∧
    (∀ k, k < e.idx → (env.zlabrd_ m n nb a lda d e tauq taup x ldx y ldy mem).e k = mem.e k)

/-- Assumption on the matrix multiply: `zgemm_`, handed the `m`-by-`n` result
matrix at `&a[p]`, writes `a` only inside that matrix and does not write `d`
or `e`. -/
def Env.zgemmFrame (env : Env R) : Prop :=
  ∀ (transa transb : String) (m n k : Int) (alpha : doublecomplex R) (a : Ptr) (lda : Int)
    (b : Ptr) (ldb : Int) (beta : doublecomplex R) (c : Ptr) (ldc : Int) (mem : Mem R),
    c.arr = Arr.a →
    (∀ x, ¬ inSub ldc c.idx m n x →
      (env.zgemm_ transa transb m n k alpha a lda b ldb beta c ldc mem).a x = mem.a x) ∧
    (env.zgemm_ transa transb m n k alpha a lda b ldb beta c ldc mem).d = mem.d ∧
    (env.zgemm_ transa transb m n k alpha a lda b ldb beta c ldc mem).e = mem.e

/-- The invariant of the main loop at panel start `i`: for every processed
index `1 <= j < i`, `A(j,j) = D(j) + 0i` and the adjacent off-diagonal entry
is `E(j) + 0i`. -/
def Processed [Zero R] (m n lda i : Int) (mem : Mem R) : Prop :=
  ∀ j, 1 ≤ j → j < i →
    mem.a (j + j * lda) = ⟨mem.d j, 0⟩ ∧ mem.a (offDiag m n lda j) = ⟨mem.e j, 0⟩

end Driver

/-! ## Sample inputs -/

/-- The answers of the reference ILAENV for the GEBRD routines: block size 32,
minimum block size 2, crossover point 128. -/
def sampleIlaenv (ispec : Int) (_name _opts : String) (_n1 _n2 _n3 _n4 : Int)
    (_name_len _opts_len : Int) : Int :=
  if ispec = 1 then 32 else if ispec = 2 then 2 else if ispec = 3 then 128 else -1

/-- A sample environment over the rationals: the reference block sizes, a
blocked reducer that stores 5 in `d[i]` and 7 in `e[i]` at the index it is
handed, a matrix multiply that leaves the arrays as they are and an unblocked
reducer that stores 9 in `d[i]`. -/
def sampleEnv : Env Rat where
  ilaenv_ := sampleIlaenv
  zlabrd_ := fun _ _ _ _ _ d e _ _ _ _ _ _ mem =>
    { mem with d := store mem.d d.idx 5, e := store mem.e e.idx 7 }
  zgemm_ := fun _ _ _ _ _ _ _ _ _ _ _ _ _ mem => mem
  zgebd2_ := fun _ _ _ _ d _ _ _ _ mem => ({ mem with d := store mem.d d.idx 9 }, 0)

/-- A sample memory: `a[k] = k - k i`, `d[k] = k`, `e[k] = -k`, the other
arrays zero. -/
def sampleMem : Mem Rat where
  a := fun k => ⟨k, -k⟩
  d := fun k => k
  e := fun k => -k
  tauq := fun _ => ⟨0, 0⟩
  taup := fun _ => ⟨0, 0⟩
  work := fun _ => ⟨0, 0⟩

/-- A second sample oracle, with a crossover answer below the block size:
block size 4, minimum block size 2, crossover point 2. -/
def smallIlaenv (ispec : Int) (_name _opts : String) (_n1 _n2 _n3 _n4 : Int)
    (_name_len _opts_len : Int) : Int :=
  if ispec = 1 then 4 else if ispec = 2 then 2 else if ispec = 3 then 2 else -1

/-- The sample environment with the second oracle. -/
def smallEnv : Env Rat :=
  { sampleEnv with ilaenv_ := smallIlaenv }

/-- The calls of the unblocked reducer. -/
def Call.isZgebd2 {R : Type} : Call R → Bool
  | Call.zgebd2_ .. => true
  | _ => false

/-- The state after `k` iterations of the loop body at the panel starts
`i0, i0 + nb, ..., i0 + (k-1)*nb`, in this order. -/
def panelState {R : Type} [Zero R] [One R] [Neg R] (env : Env R)
    (m n lda nb ldwrkx ldwrky i0 : Int) (st : St R) : Nat → St R
  | 0 => st
  | k + 1 => loopBody env m n lda nb ldwrkx ldwrky (i0 + k * nb)
      (panelState env m n lda nb ldwrkx ldwrky i0 st k)

/-- The number of iterations of a loop from 1 to `i1` in steps of `nb >= 1`:
`ceil(i1 / nb)`, computed as `floor((i1 + nb - 1) / nb)`, when `i1 >= 1`, and
0 otherwise. -/
def tripCount (i1 nb : Int) : Nat :=
  if 1 ≤ i1 then (Int.fdiv (i1 + nb - 1) nb).toNat else 0

/-! ### Exact complex arithmetic and the contract of the matrix multiply -/

section Exact

variable {R : Type} [CommRing R]

/-- Complex addition. -/
def cadd (x y : doublecomplex R) : doublecomplex R := ⟨x.r + y.r, x.i + y.i⟩

/-- Complex subtraction. -/
def csub (x y : doublecomplex R) : doublecomplex R := ⟨x.r - y.r, x.i - y.i⟩

/-- Complex multiplication. -/
def cmul (x y : doublecomplex R) : doublecomplex R :=
  ⟨x.r * y.r - x.i * y.i, x.r * y.i + x.i * y.r⟩

/-- Complex conjugation. -/
def cconj (x : doublecomplex R) : doublecomplex R := ⟨x.r, -x.i⟩

/-- The sum `f 0 + f 1 + ... + f (k-1)`. -/
def csum (f : Nat → doublecomplex R) : Nat → doublecomplex R
  | 0 => ⟨0, 0⟩
  | k + 1 => cadd (csum f k) (f k)

/-- The complex value at `&arr[k]` (a real array is read with imaginary part 0). -/
def Mem.getC (mem : Mem R) (arr : Arr) (k : Int) : doublecomplex R :=
  match arr with
  | Arr.a => mem.a k
  | Arr.tauq => mem.tauq k
  | Arr.taup => mem.taup k
  | Arr.work => mem.work k
  | Arr.d => ⟨mem.d k, 0⟩
  | Arr.e => ⟨mem.e k, 0⟩

/-- The entry `(r, c)` (counted from 0) of `op(P)` for the matrix stored at the
pointer `p` with leading dimension `ld`: `P(r,c)` for `trans` starting with
`N`, `conj(P(c,r))` for `C`, `P(c,r)` otherwise. -/
def opElem (mem : Mem R) (trans : String) (p : Ptr) (ld : Int) (r c : Int) : doublecomplex R :=
  if trans.front = 'N' then mem.getC p.arr (p.idx + r + c * ld)
  else if trans.front = 'C' then cconj (mem.getC p.arr (p.idx + c + r * ld))
  else mem.getC p.arr (p.idx + c + r * ld)

/-- Modelled from the spec: `zgemm_` is not in the sources; section 6 gives its
contract, "matrix-multiply(transA, transB, dims, alpha, A, ldA, B, ldB, beta,
C, ldC) ... accumulates C := alpha·op(A)·op(B) + beta·C exactly".  The entry
`(r, c)`, `0 <= r < m`, `0 <= c < n`, of the column-major matrix at the pointer
`c` with leading dimension `ldc >= max(1,m)` receives
`alpha * sum over l < k of op(A)(r,l) * op(B)(l,c) + beta * C(r,c)`, all
operands read on entry; nothing else is written. -/
def zgemmExact (transa transb : String) (m n k : Int) (alpha : doublecomplex R)
    (a : Ptr) (lda : Int) (b : Ptr) (ldb : Int) (beta : doublecomplex R)
    (c : Ptr) (ldc : Int) (mem : Mem R) : Mem R :=
  let val : Int → doublecomplex R := fun x =>
    let r := (x - c.idx) % ldc
    let cc := (x - c.idx) / ldc
    if max 1 m ≤ ldc ∧ r < m ∧ 0 ≤ cc ∧ cc < n then
      cadd (cmul alpha (csum (fun l =>
          cmul (opElem mem transa a lda r l) (opElem mem transb b ldb l cc)) k.toNat))
        (cmul beta (mem.getC c.arr x))
    else mem.getC c.arr x
  match c.arr with
  | Arr.a => { mem with a := val }
  | Arr.work => { mem with work := val }
  | Arr.tauq => { mem with tauq := val }
  | Arr.taup => { mem with taup := val }
  | _ => mem

end Exact

/-- The sample environment with the exact matrix multiply. -/
def exactEnv : Env Rat :=
  { smallEnv with zgemm_ := zgemmExact }

/-- A sample memory with a non-zero workspace: `work[k] = k + i`, the other
arrays as in `sampleMem`. -/
def workMem : Mem Rat :=
  { sampleMem with work := fun k => ⟨k, 1⟩ }

/-! ## The matrix-vector kernel of `kernel/mips64/gemv_n_loongson3a.c`

`FLOAT` is a commutative ring `K` with decidable equality (exact arithmetic),
`BLASLONG` is `Int`.  The arrays `A`, `X`, `Y`, `BUFFER` are distinct arrays,
functions from the index to the stored value.  The macro `prefetch` issues a
load whose result is discarded and is left out. -/

section GemvKernel

variable {K : Type} [CommRing K]

/-- The arrays handed to the kernel. -/
structure GemvMem (K : Type) where
  A : Int → K
  X : Int → K
  Y : Int → K
  BUFFER : Int → K

/-- The variables of an inner loop: the row index `i`, the position `h` in
`Y` (declared only in the paths with `INCY != 1`) and the contents of `Y`. -/
structure RowState (K : Type) where
  i : Int
  h : Int
  Y : Int → K

/-- A loop macro: a transformer of the loop variables that ends with `i++`. -/
structure LoopMacro (K : Type) where
  run : RowState K → RowState K
  inc : ∀ s, (run s).i = s.i + 1

/-- The macro
`#define spec_loop_alpha1 do {Y[i] += A[LDA * j + i] * X[k]; i++;} while(0)`. -/
def spec_loop_alpha1 (A X : Int → K) (LDA j k : Int) : LoopMacro K where
  run := fun s =>
    { i := s.i + 1, h := s.h, Y := store s.Y s.i (s.Y s.i + A (LDA * j + s.i) * X k) }
  inc := fun _ => rfl

/-- The macro
`#define spec_loop do {Y[i] += ALPHA * A[LDA * j + i] * X[k]; i++;} while(0)`. -/
def spec_loop (ALPHA : K) (A X : Int → K) (LDA j k : Int) : LoopMacro K where
  run := fun s =>
    { i := s.i + 1, h := s.h,
      Y := store s.Y s.i (s.Y s.i + ALPHA * A (LDA * j + s.i) * X k) }
  inc := fun _ => rfl

/-- The macro
`#define norm_loop_alpha1 do {Y[h] += A[LDA * j + i] * X[k]; i++; h += INCY;} while(0)`. -/
def norm_loop_alpha1 (A X : Int → K) (LDA INCY j k : Int) : LoopMacro K where
  run := fun s =>
    { i := s.i + 1, h := s.h + INCY,
      Y := store s.Y s.h (s.Y s.h + A (LDA * j + s.i) * X k) }
  inc := fun _ => rfl

/-- The macro
`#define norm_loop do {Y[h] += ALPHA * A[LDA * j + i] * X[k]; i++; h += INCY;} while(0)`. -/
def norm_loop (ALPHA : K) (A X : Int → K) (LDA INCY j k : Int) : LoopMacro K where
  run := fun s =>
    { i := s.i + 1, h := s.h + INCY,
      Y := store s.Y s.h (s.Y s.h + ALPHA * A (LDA * j + s.i) * X k) }
  inc := fun _ => rfl

/-- The unrolled loop `for(; likely(i < tMQ);) { body; body; body; body; }`. -/
def unrolledLoop (body : LoopMacro K) (tMQ : Int) (s : RowState K) : RowState K :=
  if s.i < tMQ then
    unrolledLoop body tMQ (body.run (body.run (body.run (body.run s))))
  else s
termination_by (tMQ - s.i).toNat
decreasing_by
  simp only [body.inc]
  omega

/-- The remainder loop `for(; likely(i < M);) { body; }`. -/
def remainderLoop (body : LoopMacro K) (M : Int) (s : RowState K) : RowState K :=
  if s.i < M then remainderLoop body M (body.run s) else s
termination_by (M - s.i).toNat
decreasing_by
  simp only [body.inc]
  omega

/-- The column loop `for(; likely(j < N); j++, k += INCX)` of one code path:
each column starts with `i = 0` (and `h = 0`), runs the unrolled loop up to
`tMQ` and the remainder loop up to `M`. -/
def columnLoop (body : Int → Int → LoopMacro K) (M N INCX tMQ : Int) (j k : Int)
    (Y : Int → K) : Int → K :=
  if j < N then
    let s0 : RowState K := { i := 0, h := 0, Y := Y }
    let s1 := unrolledLoop (body j k) tMQ s0
    let s2 := remainderLoop (body j k) M s1
    columnLoop body M N INCX tMQ (j + 1) (k + INCX) s2.Y
  else Y
termination_by (N - j).toNat
decreasing_by omega

/-- The function `CNAME(M, N, UNUSED, ALPHA, A, LDA, X, INCX, Y, INCY, BUFFER)`:
the return value and the arrays on return. -/
def CNAME [DecidableEq K] (M N _UNUSED : Int) (ALPHA : K) (LDA INCX INCY : Int)
    (mem : GemvMem K) : Int × GemvMem K :=
  if ALPHA = 0 then (0, mem)
  else
    let INCX1 := if INCX < 0 then -INCX else INCX
    let INCY1 := if INCY < 0 then -INCY else INCY
    let spec_unroll : Int := 4
    let tMQ := M - Int.tmod M spec_unroll
    let j : Int := 0
    let k : Int := 0
    if ALPHA = 1 then
      if INCY1 = 1 then
        (0, { mem with
              Y := columnLoop (fun j k => spec_loop_alpha1 mem.A mem.X LDA j k)
                M N INCX1 tMQ j k mem.Y })
      else
        (0, { mem with
              Y := columnLoop (fun j k => norm_loop_alpha1 mem.A mem.X LDA INCY1 j k)
                M N INCX1 tMQ j k mem.Y })
    else
      if INCY1 = 1 then
        (0, { mem with
              Y := columnLoop (fun j k => spec_loop ALPHA mem.A mem.X LDA j k)
                M N INCX1 tMQ j k mem.Y })
      else
        (0, { mem with
              Y := columnLoop (fun j k => norm_loop ALPHA mem.A mem.X LDA INCY1 j k)
                M N INCX1 tMQ j k mem.Y })

/-- The plain inner loop `for i in i..M-1: Y[i*INCY] += ALPHA*A[LDA*j+i]*X[k]`. -/
def plainRows (ALPHA : K) (A X : Int → K) (LDA INCY M j k : Int) (i : Int)
    (Y : Int → K) : Int → K :=
  if i < M then
    plainRows ALPHA A X LDA INCY M j k (i + 1)
      (store Y (i * INCY) (Y (i * INCY) + ALPHA * A (LDA * j + i) * X k))
  else Y
termination_by (M - i).toNat
decreasing_by omega

/-- The plain double loop
`for j in j..N-1, for i in 0..M-1: Y[i*INCY] += ALPHA*A[LDA*j+i]*X[j*INCX]`. -/
def plainCols (ALPHA : K) (A X : Int → K) (LDA INCX INCY M N : Int) (j : Int)
    (Y : Int → K) : Int → K :=
  if j < N then
    plainCols ALPHA A X LDA INCX INCY M N (j + 1)
      (plainRows ALPHA A X LDA INCY M j (j * INCX) 0 Y)
  else Y
termination_by (N - j).toNat
decreasing_by omega

end GemvKernel

/-- A sample input of the kernel over the rationals: `A[k] = k`, `X[k] = k + 1`,
`Y[k] = 10 k`, `BUFFER[k] = 0`. -/
def sampleGemv : GemvMem Rat where
  A := fun k => k
  X := fun k => k + 1
  Y := fun k => 10 * k
  BUFFER := fun _ => 0

/-- A loop macro simulates the plain step on the states that satisfy `P`:
it keeps `P` and performs `Y[i*INCY] += ALPHA*A[LDA*j+i]*X[k]`. -/
def Simulates {K : Type} [CommRing K] (body : LoopMacro K) (P : RowState K → Prop)
    (ALPHA : K) (A X : Int → K) (LDA INCY j k : Int) : Prop :=
  ∀ s, P s → P (body.run s) ∧
    (body.run s).Y =
      store s.Y (s.i * INCY) (s.Y (s.i * INCY) + ALPHA * A (LDA * j + s.i) * X k)

section Lemmas

variable {R : Type}

/-- A value in the 32-bit range is its own 32-bit value. -/
theorem wrap32_of_range (x : Int) (h1 : -2147483648 ≤ x) (h2 : x < 2147483648) :
    wrap32 x = x := by
  unfold wrap32
  omega

/-- A 32-bit value lies in the 32-bit range. -/
theorem wrap32_range (x : Int) : -2147483648 ≤ wrap32 x ∧ wrap32 x < 2147483648 := by
  unfold wrap32
  omega

/-- The 32-bit value of a non-negative number does not exceed it. -/
theorem wrap32_le_of_nonneg (x : Int) (h : 0 ≤ x) : wrap32 x ≤ x := by
  unfold wrap32
  omega

/-- The divisor `m + n` of the shrink is its own 32-bit value for every matrix
with `m, n >= 2` whose `m * n` entries 32-bit indices can address. -/
theorem wrap32_divisor (m n : Int) (hm : 2 ≤ m) (hn : 2 ≤ n) (h : m * n < 2147483648) :
    wrap32 (m + n) = m + n := by
  have h1 : 0 ≤ (m - 2) * (n - 2) := mul_nonneg (by omega) (by omega)
  have h2 : m + n ≤ m * n := by nlinarith
  exact wrap32_of_range _ (by omega) (by omega)

theorem f2cmax_eq_max (a b : Int) : f2cmax a b = max a b := by
  unfold f2cmax
  split <;> omega

theorem f2cmin_eq_min (a b : Int) : f2cmin a b = min a b := by
  unfold f2cmin
  split <;> omega

theorem checkArgs_eq (m n lda lwork : Int) :
    checkArgs m n lda lwork (decide (lwork = -1)) =
      (if m < 0 then -1 else if n < 0 then -2 else if lda < max 1 m then -4
       else if lwork < max (max 1 m) n ∧ lwork ≠ -1 then -10 else 0) := by
  simp only [checkArgs, f2cmax_eq_max, decide_eq_true_eq]

theorem checkArgs_nonpos (m n lda lwork : Int) (q : Bool) :
    checkArgs m n lda lwork q ≤ 0 := by
  unfold checkArgs
  split_ifs <;> decide

theorem store_same {α : Type} (f : Int → α) (k : Int) (v : α) : store f k v k = v := by
  simp [store]

theorem store_other {α : Type} (f : Int → α) (k x : Int) (v : α) (h : x ≠ k) :
    store f k v x = f x := by
  simp [store, h]

theorem sameOutputs_setWork (mem : Mem R) (k : Int) (v : doublecomplex R) :
    (mem.setWork k v).sameOutputs mem :=
  ⟨rfl, rfl, rfl, rfl, rfl⟩

/-- The error exit of `zgebrd_`. -/
theorem zgebrd_error_exit [Zero R] [One R] [Neg R] [IntCast R] (env : Env R) (fuel : Nat)
    (m n lda lwork : Int) (mem : Mem R)
    (h : checkArgs m n lda lwork (decide (lwork = -1)) < 0) :
    zgebrd_ env fuel m n lda lwork mem =
      some { info := checkArgs m n lda lwork (decide (lwork = -1))
             mem := mem.setWork 1
                 ⟨((wrap32 ((m + n) * f2cmax 1 (env.query c__1 m n)) : Int) : R), 0⟩
             trace := [queryCall c__1 m n,
               Call.xerbla_ "ZGEBRD" (-checkArgs m n lda lwork (decide (lwork = -1))) 6] } := by
  unfold zgebrd_
  dsimp only
  rw [if_pos h]
  rfl

/-- The exit of a workspace query. -/
theorem zgebrd_query_exit [Zero R] [One R] [Neg R] [IntCast R] (env : Env R) (fuel : Nat)
    (m n lda lwork : Int) (mem : Mem R)
    (h : ¬ checkArgs m n lda lwork (decide (lwork = -1)) < 0) (hq : lwork = -1) :
    zgebrd_ env fuel m n lda lwork mem =
      some { info := checkArgs m n lda lwork (decide (lwork = -1))
             mem := mem.setWork 1
                 ⟨((wrap32 ((m + n) * f2cmax 1 (env.query c__1 m n)) : Int) : R), 0⟩
             trace := [queryCall c__1 m n] } := by
  unfold zgebrd_
  dsimp only
  rw [if_neg h, if_pos (by simpa using hq)]

/-- The quick return. -/
theorem zgebrd_quick_exit [Zero R] [One R] [Neg R] [IntCast R] (env : Env R) (fuel : Nat)
    (m n lda lwork : Int) (mem : Mem R)
    (h : ¬ checkArgs m n lda lwork (decide (lwork = -1)) < 0) (hq : lwork ≠ -1)
    (hmin : f2cmin m n = 0) :
    zgebrd_ env fuel m n lda lwork mem =
      some { info := checkArgs m n lda lwork (decide (lwork = -1))
             mem := (mem.setWork 1
               ⟨((wrap32 ((m + n) * f2cmax 1 (env.query c__1 m n)) : Int) : R), 0⟩).setWork 1 ⟨1, 0⟩
             trace := [queryCall c__1 m n] } := by
  unfold zgebrd_
  dsimp only
  rw [if_neg h, if_neg (by simpa using hq), if_pos hmin]

/-- The path through the main loop and the unblocked reducer. -/
theorem zgebrd_full [Zero R] [One R] [Neg R] [IntCast R] (env : Env R) (fuel : Nat)
    (m n lda lwork : Int) (mem : Mem R)
    (h : ¬ checkArgs m n lda lwork (decide (lwork = -1)) < 0) (hq : lwork ≠ -1)
    (hmin : f2cmin m n ≠ 0) :
    zgebrd_ env fuel m n lda lwork mem =
      (mainLoop env m n lda (blocking env m n lwork (f2cmax 1 (env.query c__1 m n))).nb m n
        (f2cmin m n - (blocking env m n lwork (f2cmax 1 (env.query c__1 m n))).nx) fuel 1
        { mem := mem.setWork 1 ⟨((wrap32 ((m + n) * f2cmax 1 (env.query c__1 m n)) : Int) : R), 0⟩
          trace := [queryCall c__1 m n] ++
            (blocking env m n lwork (f2cmax 1 (env.query c__1 m n))).calls }).map
        (fun r =>
          { info := checkArgs m n lda lwork (decide (lwork = -1))
            mem := ((r.2.zgebd2 env (m - r.1 + 1) (n - r.1 + 1)
              ⟨Arr.a, r.1 + r.1 * lda⟩ lda ⟨Arr.d, r.1⟩ ⟨Arr.e, r.1⟩
              ⟨Arr.tauq, r.1⟩ ⟨Arr.taup, r.1⟩ ⟨Arr.work, 1⟩).mem).setWork 1
              ⟨(((blocking env m n lwork (f2cmax 1 (env.query c__1 m n))).ws : Int) : R), 0⟩
            trace := (r.2.zgebd2 env (m - r.1 + 1) (n - r.1 + 1)
              ⟨Arr.a, r.1 + r.1 * lda⟩ lda ⟨Arr.d, r.1⟩ ⟨Arr.e, r.1⟩
              ⟨Arr.tauq, r.1⟩ ⟨Arr.taup, r.1⟩ ⟨Arr.work, 1⟩).trace }) := by
  unfold zgebrd_
  dsimp only
  rw [if_neg h, if_neg (by simpa using hq), if_neg hmin]
  cases mainLoop env m n lda (blocking env m n lwork (f2cmax 1 (env.query c__1 m n))).nb m n
        (f2cmin m n - (blocking env m n lwork (f2cmax 1 (env.query c__1 m n))).nx) fuel 1
        { mem := mem.setWork 1 ⟨((wrap32 ((m + n) * f2cmax 1 (env.query c__1 m n)) : Int) : R), 0⟩
          trace := [queryCall c__1 m n] ++
            (blocking env m n lwork (f2cmax 1 (env.query c__1 m n))).calls } <;> rfl

theorem loopBody_trace [Zero R] [One R] [Neg R] (env : Env R)
    (m n lda nb ldwrkx ldwrky i__ : Int) (st : St R) :
    ∃ l : List (Call R), (loopBody env m n lda nb ldwrkx ldwrky i__ st).trace = st.trace ++ l ∧
      ∀ c ∈ l, c.isXerbla = false := by
  refine ⟨[Call.zlabrd_ (m - i__ + 1) (n - i__ + 1) nb ⟨Arr.a, i__ + i__ * lda⟩ lda
      ⟨Arr.d, i__⟩ ⟨Arr.e, i__⟩ ⟨Arr.tauq, i__⟩ ⟨Arr.taup, i__⟩
      ⟨Arr.work, 1⟩ ldwrkx ⟨Arr.work, ldwrkx * nb + 1⟩ ldwrky,
    Call.zgemm_ "No transpose" "Conjugate transpose" (m - i__ - nb + 1) (n - i__ - nb + 1) nb
      ⟨-1, 0⟩ ⟨Arr.a, i__ + nb + i__ * lda⟩ lda ⟨Arr.work, ldwrkx * nb + nb + 1⟩ ldwrky
      c_b1 ⟨Arr.a, i__ + nb + (i__ + nb) * lda⟩ lda,
    Call.zgemm_ "No transpose" "No transpose" (m - i__ - nb + 1) (n - i__ - nb + 1) nb
      ⟨-1, 0⟩ ⟨Arr.work, nb + 1⟩ ldwrkx ⟨Arr.a, i__ + (i__ + nb) * lda⟩ lda
      c_b1 ⟨Arr.a, i__ + nb + (i__ + nb) * lda⟩ lda], ?_, ?_⟩
  · simp [loopBody, trailingUpdate, St.zlabrd, St.zgemm]
  · intro c hc
    simp only [List.mem_cons, List.mem_singleton, List.not_mem_nil, or_false] at hc
    rcases hc with rfl | rfl | rfl <;> rfl

theorem mainLoop_trace [Zero R] [One R] [Neg R] (env : Env R)
    (m n lda nb ldwrkx ldwrky i__1 : Int) (fuel : Nat) :
    ∀ (i__ : Int) (st : St R) (r : Int × St R),
      mainLoop env m n lda nb ldwrkx ldwrky i__1 fuel i__ st = some r →
      ∃ l : List (Call R), r.2.trace = st.trace ++ l ∧ ∀ c ∈ l, c.isXerbla = false := by
  induction fuel with
  | zero => intro i__ st r h; simp [mainLoop] at h
  | succ k ih =>
    intro i__ st r h
    rw [mainLoop] at h
    split at h
    · obtain ⟨l1, h1, h1x⟩ := loopBody_trace env m n lda nb ldwrkx ldwrky i__ st
      obtain ⟨l2, h2, h2x⟩ := ih _ _ r h
      refine ⟨l1 ++ l2, ?_, ?_⟩
      · rw [h2, h1, List.append_assoc]
      · intro c hc
        rcases List.mem_append.mp hc with hc | hc
        · exact h1x c hc
        · exact h2x c hc
    · injection h with h
      subst h
      exact ⟨[], by simp, by simp⟩

theorem blocking_calls_not_xerbla (env : Env R) (m n lwork nb : Int) :
    ∀ c ∈ (blocking env m n lwork nb).calls, c.isXerbla = false := by
  intro c hc
  unfold blocking at hc
  dsimp only at hc
  split_ifs at hc <;>
    simp only [List.mem_cons, List.mem_singleton, List.not_mem_nil, or_false] at hc <;>
    (rcases hc with rfl | rfl <;> rfl)

/-- Every return of `zgebrd_` carries the value of `*info` set by the tests of
the input parameters. -/
theorem zgebrd_info_order_aux [Zero R] [One R] [Neg R] [IntCast R] (env : Env R) (fuel : Nat)
    (m n lda lwork : Int) (mem : Mem R) (out : Out R)
    (hout : zgebrd_ env fuel m n lda lwork mem = some out) :
    out.info = checkArgs m n lda lwork (decide (lwork = -1)) := by
  by_cases h : checkArgs m n lda lwork (decide (lwork = -1)) < 0
  · rw [zgebrd_error_exit env fuel m n lda lwork mem h] at hout
    injection hout with hout
    subst hout
    rfl
  · by_cases hq : lwork = -1
    · rw [zgebrd_query_exit env fuel m n lda lwork mem h hq] at hout
      injection hout with hout
      subst hout
      rfl
    · by_cases hmin : f2cmin m n = 0
      · rw [zgebrd_quick_exit env fuel m n lda lwork mem h hq hmin] at hout
        injection hout with hout
        subst hout
        rfl
      · rw [zgebrd_full env fuel m n lda lwork mem h hq hmin] at hout
        obtain ⟨r, _, hro⟩ := Option.map_eq_some'.mp hout
        subst hro
        rfl

/-- With a step `nb >= 1` the main loop returns as soon as the fuel exceeds the
distance from `i__` to the bound `i__1`. -/
theorem mainLoop_returns [Zero R] [One R] [Neg R] (env : Env R)
    (m n lda nb ldwrkx ldwrky i__1 : Int) (hnb : 1 ≤ nb) (k : Nat) :
    ∀ (i__ : Int) (st : St R), (i__1 + 1 - i__).toNat ≤ k →
      ∃ r, mainLoop env m n lda nb ldwrkx ldwrky i__1 (k + 1) i__ st = some r := by
  induction k with
  | zero =>
    intro i__ st hk
    rw [mainLoop]
    have ht : loopTest nb i__ i__1 = false := by
      unfold loopTest
      rw [if_neg (by omega)]
      simp only [decide_eq_false_iff_not]
      omega
    rw [ht]
    exact ⟨_, rfl⟩
  | succ k ih =>
    intro i__ st hk
    rw [mainLoop]
    cases ht : loopTest nb i__ i__1 with
    | false => exact ⟨_, rfl⟩
    | true =>
      have hle : i__ ≤ i__1 := by
        unfold loopTest at ht
        rw [if_neg (by omega)] at ht
        simpa using ht
      simp only [if_true]
      exact ih _ _ (by omega)

theorem mul_stride_eq_zero (lda t : Int) (hl : 1 ≤ lda) (h : t * (1 + lda) = 0) : t = 0 := by
  rcases mul_eq_zero.mp h with h | h <;> omega

theorem diag_inj (lda j j' : Int) (hl : 1 ≤ lda) (h : j + j * lda = j' + j' * lda) :
    j = j' := by
  have : (j - j') * (1 + lda) = 0 := by ring_nf; linarith
  have := mul_stride_eq_zero lda _ hl this
  omega

theorem sup_inj (lda j j' : Int) (hl : 1 ≤ lda)
    (h : j + (j + 1) * lda = j' + (j' + 1) * lda) : j = j' := by
  have : (j - j') * (1 + lda) = 0 := by ring_nf; linarith
  have := mul_stride_eq_zero lda _ hl this
  omega

theorem sub_inj (lda j j' : Int) (hl : 1 ≤ lda)
    (h : j + 1 + j * lda = j' + 1 + j' * lda) : j = j' := by
  have : (j - j') * (1 + lda) = 0 := by ring_nf; linarith
  have := mul_stride_eq_zero lda _ hl this
  omega

theorem diag_ne_sup (lda j j' : Int) (hl : 1 ≤ lda) :
    j + j * lda ≠ j' + (j' + 1) * lda := by
  intro h
  have h1 : (j - j') * (1 + lda) = lda := by ring_nf; linarith
  rcases le_or_lt j j' with hj | hj
  · have := mul_nonneg (sub_nonneg.mpr hj) (by omega : (0 : Int) ≤ 1 + lda)
    nlinarith
  · have := mul_nonneg (by omega : (0 : Int) ≤ j - j' - 1) (by omega : (0 : Int) ≤ 1 + lda)
    nlinarith

theorem diag_ne_sub (lda j j' : Int) (hl : 1 ≤ lda) :
    j + j * lda ≠ j' + 1 + j' * lda := by
  intro h
  have h1 : (j - j') * (1 + lda) = 1 := by ring_nf; linarith
  rcases le_or_lt j j' with hj | hj
  · have := mul_nonneg (sub_nonneg.mpr hj) (by omega : (0 : Int) ≤ 1 + lda)
    nlinarith
  · have := mul_nonneg (by omega : (0 : Int) ≤ j - j' - 1) (by omega : (0 : Int) ≤ 1 + lda)
    nlinarith

theorem offDiag_inj (m n lda j j' : Int) (hl : 1 ≤ lda)
    (h : offDiag m n lda j = offDiag m n lda j') : j = j' := by
  unfold offDiag at h
  split at h
  · exact sup_inj lda j j' hl h
  · exact sub_inj lda j j' hl h

theorem diag_ne_offDiag (m n lda j j' : Int) (hl : 1 ≤ lda) :
    j + j * lda ≠ offDiag m n lda j' := by
  unfold offDiag
  split
  · exact diag_ne_sup lda j j' hl
  · exact diag_ne_sub lda j j' hl

theorem copyUpper_eq_copyGen [Zero R] (a_dim1 i__3 : Int) (k : Nat) :
    ∀ (j : Int) (mem : Mem R), (i__3 + 1 - j).toNat = k →
      copyUpper a_dim1 i__3 j mem =
        copyGen (fun j => j + j * a_dim1) (fun j => j + (j + 1) * a_dim1) i__3 j mem := by
  induction k with
  | zero =>
    intro j mem hk
    rw [copyUpper, copyGen, if_neg (by omega), if_neg (by omega)]
  | succ k ih =>
    intro j mem hk
    rw [copyUpper, copyGen, if_pos (by omega), if_pos (by omega)]
    exact ih _ _ (by omega)

theorem copyLower_eq_copyGen [Zero R] (a_dim1 i__3 : Int) (k : Nat) :
    ∀ (j : Int) (mem : Mem R), (i__3 + 1 - j).toNat = k →
      copyLower a_dim1 i__3 j mem =
        copyGen (fun j => j + j * a_dim1) (fun j => j + 1 + j * a_dim1) i__3 j mem := by
  induction k with
  | zero =>
    intro j mem hk
    rw [copyLower, copyGen, if_neg (by omega), if_neg (by omega)]
  | succ k ih =>
    intro j mem hk
    rw [copyLower, copyGen, if_pos (by omega), if_pos (by omega)]
    exact ih _ _ (by omega)

theorem copyBack_eq_copyGen [Zero R] (m n a_dim1 nb i__ : Int) (mem : Mem R) :
    copyBack m n a_dim1 nb i__ mem =
      copyGen (fun j => j + j * a_dim1) (offDiag m n a_dim1) (i__ + nb - 1) i__ mem := by
  unfold copyBack
  by_cases h : m ≥ n
  · rw [if_pos h, copyUpper_eq_copyGen a_dim1 _ _ i__ mem rfl]
    have : offDiag m n a_dim1 = fun j => j + (j + 1) * a_dim1 := by
      funext j; simp [offDiag, h]
    rw [this]
  · rw [if_neg h, copyLower_eq_copyGen a_dim1 _ _ i__ mem rfl]
    have : offDiag m n a_dim1 = fun j => j + 1 + j * a_dim1 := by
      funext j; simp [offDiag, h]
    rw [this]

/-- The copy loop leaves `d`, `e`, `tauq`, `taup`, `work` alone and writes `a`
only at the indices `dg j`, `off j` of its range. -/
theorem copyGen_frame [Zero R] (dg off : Int → Int) (i__3 : Int) (k : Nat) :
    ∀ (j : Int) (mem : Mem R), (i__3 + 1 - j).toNat = k →
      (copyGen dg off i__3 j mem).d = mem.d ∧ (copyGen dg off i__3 j mem).e = mem.e ∧
      (copyGen dg off i__3 j mem).tauq = mem.tauq ∧
      (copyGen dg off i__3 j mem).taup = mem.taup ∧
      (copyGen dg off i__3 j mem).work = mem.work ∧
      ∀ x, (∀ j', j ≤ j' → j' ≤ i__3 → x ≠ dg j' ∧ x ≠ off j') →
        (copyGen dg off i__3 j mem).a x = mem.a x := by
  induction k with
  | zero =>
    intro j mem hk
    rw [copyGen, if_neg (by omega)]
    exact ⟨rfl, rfl, rfl, rfl, rfl, fun _ _ => rfl⟩
  | succ k ih =>
    intro j mem hk
    rw [copyGen, if_pos (by omega)]
    obtain ⟨hd, he, htq, htp, hw, ha⟩ := ih (j + 1)
      ((mem.setA (dg j) ⟨mem.d j, 0⟩).setA (off j) ⟨mem.e j, 0⟩) (by omega)
    refine ⟨hd, he, htq, htp, hw, ?_⟩
    intro x hx
    rw [ha x (fun j' h1 h2 => hx j' (by omega) h2)]
    have hj := hx j (le_refl j) (by omega)
    simp only [Mem.setA]
    rw [store_other _ _ _ _ hj.2, store_other _ _ _ _ hj.1]

/-- With pairwise distinct target indices, the copy loop leaves
`d[j'] + 0i` at `dg j'` and `e[j'] + 0i` at `off j'` for every `j'` of its
range. -/
theorem copyGen_written [Zero R] (dg off : Int → Int) (i__3 : Int)
    (hdg : ∀ p q, dg p = dg q → p = q) (hoff : ∀ p q, off p = off q → p = q)
    (hdo : ∀ p q, dg p ≠ off q) (k : Nat) :
    ∀ (j : Int) (mem : Mem R), (i__3 + 1 - j).toNat = k →
      ∀ j', j ≤ j' → j' ≤ i__3 →
        (copyGen dg off i__3 j mem).a (dg j') = ⟨mem.d j', 0⟩ ∧
        (copyGen dg off i__3 j mem).a (off j') = ⟨mem.e j', 0⟩ := by
  induction k with
  | zero =>
    intro j mem hk j' h1 h2
    omega
  | succ k ih =>
    intro j mem hk j' h1 h2
    rw [copyGen, if_pos (by omega)]
    rcases eq_or_lt_of_le h1 with heq | hlt
    · subst heq
      obtain ⟨_, _, _, _, _, ha⟩ := copyGen_frame dg off i__3 k (j + 1)
        ((mem.setA (dg j) ⟨mem.d j, 0⟩).setA (off j) ⟨mem.e j, 0⟩) (by omega)
      constructor
      · rw [ha (dg j) (fun q hq1 _ =>
          ⟨fun hc => by have := hdg _ _ hc; omega, hdo j q⟩)]
        simp only [Mem.setA]
        rw [store_other _ _ _ _ (hdo j j), store_same]
      · rw [ha (off j) (fun q hq1 _ =>
          ⟨fun hc => hdo q j hc.symm, fun hc => by have := hoff _ _ hc; omega⟩)]
        simp only [Mem.setA]
        rw [store_same]
    · exact ih (j + 1) _ (by omega) j' (by omega) h2

/-- The copy-back step, in terms of `offDiag`. -/
theorem copyBack_spec [Zero R] (m n lda nb i__ : Int) (mem : Mem R) (hlda : 1 ≤ lda) :
    (∀ j, i__ ≤ j → j ≤ i__ + nb - 1 →
      (copyBack m n lda nb i__ mem).a (j + j * lda) = ⟨mem.d j, 0⟩ ∧
      (copyBack m n lda nb i__ mem).a (offDiag m n lda j) = ⟨mem.e j, 0⟩) ∧
    (∀ x, (∀ j, i__ ≤ j → j ≤ i__ + nb - 1 → x ≠ j + j * lda ∧ x ≠ offDiag m n lda j) →
      (copyBack m n lda nb i__ mem).a x = mem.a x) ∧
    (copyBack m n lda nb i__ mem).d = mem.d ∧
    (copyBack m n lda nb i__ mem).e = mem.e ∧
    (copyBack m n lda nb i__ mem).tauq = mem.tauq ∧
    (copyBack m n lda nb i__ mem).taup = mem.taup ∧
    (copyBack m n lda nb i__ mem).work = mem.work := by
  rw [copyBack_eq_copyGen]
  obtain ⟨hd, he, htq, htp, hw, ha⟩ :=
    copyGen_frame (fun j => j + j * lda) (offDiag m n lda) (i__ + nb - 1) _ i__ mem rfl
  have hwr := copyGen_written (fun j => j + j * lda) (offDiag m n lda) (i__ + nb - 1)
    (fun p q h => diag_inj lda p q hlda h) (fun p q h => offDiag_inj m n lda p q hlda h)
    (fun p q => diag_ne_offDiag m n lda p q hlda) _ i__ mem rfl
  exact ⟨fun j h1 h2 => hwr j h1 h2, fun x hx => ha x hx, hd, he, htq, htp, hw⟩

/-- A diagonal entry `A(j,j)` with `j < i` lies outside every submatrix that
starts at `A(i,i)`. -/
theorem diag_not_inSub (lda i rows cols j : Int) (hl : 1 ≤ lda) (hj : j < i) :
    ¬ inSub lda (i + i * lda) rows cols (j + j * lda) := by
  rintro ⟨r, c, hr, _, hc, _, h⟩
  have h1 : j - i - r = (i + c - j) * lda := by ring_nf; linarith
  have h2 := mul_nonneg (by omega : (0 : Int) ≤ i + c - j) (by omega : (0 : Int) ≤ lda)
  omega

/-- The off-diagonal neighbour of `A(j,j)` with `j < i` lies outside every
submatrix that starts at `A(i,i)`. -/
theorem offDiag_not_inSub (m n lda i rows cols j : Int) (hl : 1 ≤ lda) (hj : j < i) :
    ¬ inSub lda (i + i * lda) rows cols (offDiag m n lda j) := by
  rintro ⟨r, c, hr, _, hc, _, h⟩
  unfold offDiag at h
  split at h
  · have h1 : j - i - r = (i + c - j - 1) * lda := by ring_nf; linarith
    have h2 := mul_nonneg (by omega : (0 : Int) ≤ i + c - j - 1) (by omega : (0 : Int) ≤ lda)
    omega
  · have h1 : j + 1 - i - r = (i + c - j - 1) * lda + lda := by ring_nf; linarith
    have h2 := mul_nonneg (by omega : (0 : Int) ≤ i + c - j - 1) (by omega : (0 : Int) ≤ lda)
    omega

/-- One iteration of the main loop re-establishes the invariant at the next
panel start. -/
theorem loopBody_processed [Zero R] [One R] [Neg R] (env : Env R)
    (m n lda nb ldwrkx ldwrky : Int) (hlda : 1 ≤ lda)
    (hl : env.zlabrdFrame) (hg : env.zgemmFrame) (i__ : Int) (st : St R)
    (hinv : Processed m n lda i__ st.mem) :
    Processed m n lda (i__ + nb) (loopBody env m n lda nb ldwrkx ldwrky i__ st).mem := by
  obtain ⟨hla, hld, hle⟩ := hl (m - i__ + 1) (n - i__ + 1) nb ⟨Arr.a, i__ + i__ * lda⟩ lda
    ⟨Arr.d, i__⟩ ⟨Arr.e, i__⟩ ⟨Arr.tauq, i__⟩ ⟨Arr.taup, i__⟩
    ⟨Arr.work, 1⟩ ldwrkx ⟨Arr.work, ldwrkx * nb + 1⟩ ldwrky st.mem rfl rfl rfl
  generalize hm1 : env.zlabrd_ (m - i__ + 1) (n - i__ + 1) nb ⟨Arr.a, i__ + i__ * lda⟩ lda
    ⟨Arr.d, i__⟩ ⟨Arr.e, i__⟩ ⟨Arr.tauq, i__⟩ ⟨Arr.taup, i__⟩
    ⟨Arr.work, 1⟩ ldwrkx ⟨Arr.work, ldwrkx * nb + 1⟩ ldwrky st.mem = mem1 at hla hld hle
  obtain ⟨hga, hgd, hge⟩ := hg "No transpose" "Conjugate transpose" (m - i__ - nb + 1)
    (n - i__ - nb + 1) nb ⟨-1, 0⟩ ⟨Arr.a, i__ + nb + i__ * lda⟩ lda
    ⟨Arr.work, ldwrkx * nb + nb + 1⟩ ldwrky c_b1 ⟨Arr.a, i__ + nb + (i__ + nb) * lda⟩ lda
    mem1 rfl
  generalize hm2 : env.zgemm_ "No transpose" "Conjugate transpose" (m - i__ - nb + 1)
    (n - i__ - nb + 1) nb ⟨-1, 0⟩ ⟨Arr.a, i__ + nb + i__ * lda⟩ lda
    ⟨Arr.work, ldwrkx * nb + nb + 1⟩ ldwrky c_b1 ⟨Arr.a, i__ + nb + (i__ + nb) * lda⟩ lda
    mem1 = mem2 at hga hgd hge
  obtain ⟨hha, hhd, hhe⟩ := hg "No transpose" "No transpose" (m - i__ - nb + 1)
    (n - i__ - nb + 1) nb ⟨-1, 0⟩ ⟨Arr.work, nb + 1⟩ ldwrkx
    ⟨Arr.a, i__ + (i__ + nb) * lda⟩ lda c_b1 ⟨Arr.a, i__ + nb + (i__ + nb) * lda⟩ lda
    mem2 rfl
  generalize hm3 : env.zgemm_ "No transpose" "No transpose" (m - i__ - nb + 1)
    (n - i__ - nb + 1) nb ⟨-1, 0⟩ ⟨Arr.work, nb + 1⟩ ldwrkx
    ⟨Arr.a, i__ + (i__ + nb) * lda⟩ lda c_b1 ⟨Arr.a, i__ + nb + (i__ + nb) * lda⟩ lda
    mem2 = mem3 at hha hhd hhe
  have hbody : (loopBody env m n lda nb ldwrkx ldwrky i__ st).mem =
      copyBack m n lda nb i__ mem3 := by
    simp only [loopBody, trailingUpdate, St.zlabrd, St.zgemm, hm1, hm2, hm3]
  rw [hbody]
  obtain ⟨hcw, hca, hcd, hce, _, _, _⟩ := copyBack_spec m n lda nb i__ mem3 hlda
  have hd3 : ∀ j, j < i__ → mem3.d j = st.mem.d j := fun j hj => by
    rw [hhd, hgd, hld j hj]
  have he3 : ∀ j, j < i__ → mem3.e j = st.mem.e j := fun j hj => by
    rw [hhe, hge, hle j hj]
  have ha3 : ∀ x, ¬ inSub lda (i__ + i__ * lda) (m - i__ + 1) (n - i__ + 1) x →
      ¬ inSub lda (i__ + nb + (i__ + nb) * lda) (m - i__ - nb + 1) (n - i__ - nb + 1) x →
      mem3.a x = st.mem.a x := fun x h1 h2 => by
    rw [hha x h2, hga x h2, hla x h1]
  intro j hj1 hj2
  rw [hcd, hce]
  by_cases hj : j < i__
  · obtain ⟨hi1, hi2⟩ := hinv j hj1 hj
    constructor
    · rw [hca _ (fun q hq1 _ => ⟨fun hc => by have := diag_inj lda _ _ hlda hc; omega,
        diag_ne_offDiag m n lda j q hlda⟩)]
      rw [ha3 _ (diag_not_inSub lda i__ _ _ j hlda hj)
        (diag_not_inSub lda (i__ + nb) _ _ j hlda (by omega)), hd3 j hj]
      exact hi1
    · rw [hca _ (fun q hq1 _ => ⟨fun hc => diag_ne_offDiag m n lda q j hlda hc.symm,
        fun hc => by have := offDiag_inj m n lda _ _ hlda hc; omega⟩)]
      rw [ha3 _ (offDiag_not_inSub m n lda i__ _ _ j hlda hj)
        (offDiag_not_inSub m n lda (i__ + nb) _ _ j hlda (by omega)), he3 j hj]
      exact hi2
  · exact hcw j (by omega) (by omega)

/-- The invariant holds on exit of the main loop when it holds at the panel
start from which the loop is run. -/
theorem mainLoop_processed [Zero R] [One R] [Neg R] (env : Env R)
    (m n lda nb ldwrkx ldwrky i__1 : Int) (hlda : 1 ≤ lda)
    (hl : env.zlabrdFrame) (hg : env.zgemmFrame) (fuel : Nat) :
    ∀ (i__ : Int) (st : St R) (r : Int × St R), Processed m n lda i__ st.mem →
      mainLoop env m n lda nb ldwrkx ldwrky i__1 fuel i__ st = some r →
      Processed m n lda r.1 r.2.mem := by
  induction fuel with
  | zero => intro i__ st r _ h; simp [mainLoop] at h
  | succ k ih =>
    intro i__ st r hinv h
    rw [mainLoop] at h
    split at h
    · exact ih _ _ r (loopBody_processed env m n lda nb ldwrkx ldwrky hlda hl hg i__ st hinv) h
    · injection h with h
      subst h
      exact hinv

theorem sampleEnv_zlabrdFrame : sampleEnv.zlabrdFrame := by
  intro m n nb a lda d e tauq taup x ldx y ldy mem _ _ _
  refine ⟨fun _ _ => rfl, fun k hk => ?_, fun k hk => ?_⟩
  · exact store_other _ _ _ _ (by omega)
  · exact store_other _ _ _ _ (by omega)

theorem sampleEnv_zgemmFrame : sampleEnv.zgemmFrame := by
  intro _ _ _ _ _ _ _ _ _ _ _ _ _ mem _
  exact ⟨fun _ _ => rfl, rfl, rfl⟩

/-- The size that a query stores in WORK(1), `(m+n)*max(1,NB1)`, is at least
`max(1,m,n)` as soon as `m + n >= 1`: it falls short only for the empty matrix
`m = n = 0`. -/
theorem lwkopt_ge_of_nonempty (m n nb1 : Int) (hm : 0 ≤ m) (hn : 0 ≤ n) (hmn : 1 ≤ m + n) :
    max (max 1 m) n ≤ (m + n) * f2cmax 1 nb1 := by
  rw [f2cmax_eq_max]
  have h1 : (1 : Int) ≤ max 1 nb1 := le_max_left _ _
  have h2 : (m + n) * 1 ≤ (m + n) * max 1 nb1 := Int.mul_le_mul_of_nonneg_left h1 (by omega)
  have h3 : max (max 1 m) n ≤ m + n := by
    simp only [max_le_iff]
    omega
  omega

/-- With `lwork` not below the 32-bit product `(m+n)*nb` the block-size
selection keeps `nb` and never asks for the minimum block size (the query made
only in the branch `lwork < ws`). -/
theorem blocking_of_enough_workspace (env : Env R) (m n lwork nb : Int)
    (h : wrap32 ((m + n) * nb) ≤ lwork) :
    (blocking env m n lwork nb).nb = nb ∧
      queryCall c__2 m n ∉ (blocking env m n lwork nb).calls := by
  unfold blocking
  dsimp only
  split_ifs <;> first
    | omega
    | exact ⟨rfl, by simp [queryCall, c__2, c__3]⟩

/-- Away from the empty matrix a call with the queried size succeeds for every
oracle when the size fits 32 bits: with `m, n >= 0`, `m + n >= 1`,
`lda >= max(1,m)`, `(m+n)*max(1,NB1) < 2^31` and `lwork` equal to that size,
which the query reports, the block width is not changed, the minimum block
size is not asked for, and the call returns `INFO = 0`. -/
theorem zgebrd_requery_of_nonempty [Zero R] [One R] [Neg R] [IntCast R] (env : Env R)
    (m n lda : Int) (mem : Mem R) (hm : 0 ≤ m) (hn : 0 ≤ n) (hmn : 1 ≤ m + n)
    (hlda : max 1 m ≤ lda)
    (hfit : (m + n) * f2cmax 1 (env.query c__1 m n) < 2147483648) :
    (blocking env m n ((m + n) * f2cmax 1 (env.query c__1 m n))
        (f2cmax 1 (env.query c__1 m n))).nb = f2cmax 1 (env.query c__1 m n) ∧
      queryCall c__2 m n ∉ (blocking env m n ((m + n) * f2cmax 1 (env.query c__1 m n))
        (f2cmax 1 (env.query c__1 m n))).calls ∧
      ∃ fuel out, zgebrd_ env fuel m n lda ((m + n) * f2cmax 1 (env.query c__1 m n)) mem =
        some out ∧ out.info = 0 := by
  have hge := lwkopt_ge_of_nonempty m n (env.query c__1 m n) hm hn hmn
  obtain ⟨hb1, hb2⟩ := blocking_of_enough_workspace env m n
    ((m + n) * f2cmax 1 (env.query c__1 m n)) (f2cmax 1 (env.query c__1 m n))
    (le_of_eq (wrap32_of_range _ (by omega) hfit))
  refine ⟨hb1, hb2, ?_⟩
  generalize hlw : (m + n) * f2cmax 1 (env.query c__1 m n) = lwork at hge hb1
  have h1 : (1 : Int) ≤ max (max 1 m) n := le_trans (le_max_left 1 m) (le_max_left _ n)
  have hq : lwork ≠ -1 := by omega
  have h0 : checkArgs m n lda lwork (decide (lwork = -1)) = 0 := by
    rw [checkArgs_eq, if_neg (by omega), if_neg (by omega), if_neg (by omega),
      if_neg (fun hc => absurd hc.1 (by omega))]
  have h : ¬ checkArgs m n lda lwork (decide (lwork = -1)) < 0 := by
    rw [h0]; decide
  by_cases hmin : f2cmin m n = 0
  · exact ⟨0, _, zgebrd_quick_exit env 0 m n lda lwork mem h hq hmin, h0⟩
  · have hnb : 1 ≤ (blocking env m n lwork (f2cmax 1 (env.query c__1 m n))).nb := by
      rw [hb1, f2cmax_eq_max]
      exact le_max_left _ _
    obtain ⟨r, hr⟩ := mainLoop_returns env m n lda _ m n
      (f2cmin m n - (blocking env m n lwork (f2cmax 1 (env.query c__1 m n))).nx) hnb
      (f2cmin m n - (blocking env m n lwork (f2cmax 1 (env.query c__1 m n))).nx + 1 - 1).toNat
      1 { mem := mem.setWork 1 ⟨((wrap32 ((m + n) * f2cmax 1 (env.query c__1 m n)) : Int) : R), 0⟩
          trace := [queryCall c__1 m n] ++
            (blocking env m n lwork (f2cmax 1 (env.query c__1 m n))).calls } (le_refl _)
    have hz := zgebrd_full env
      ((f2cmin m n - (blocking env m n lwork (f2cmax 1 (env.query c__1 m n))).nx
        + 1 - 1).toNat + 1) m n lda lwork mem h hq hmin
    rw [hr, Option.map_some'] at hz
    exact ⟨_, _, hz, h0⟩

/-- The block width with which the driver leaves the block-size selection. -/
theorem blocking_nb (env : Env R) (m n lwork nb : Int) :
    (blocking env m n lwork nb).nb =
      if 1 < nb ∧ nb < min m n ∧ max nb (env.query 3 m n) < min m n ∧
          lwork < wrap32 ((m + n) * nb)
      then (if wrap32 ((m + n) * env.query 2 m n) ≤ lwork then Int.tdiv lwork (m + n) else 1)
      else nb := by
  unfold blocking
  simp only [f2cmax_eq_max, f2cmin_eq_min, c__3, c__2, gt_iff_lt, ge_iff_le]
  split_ifs <;> first | rfl | (exfalso; tauto)

/-- The crossover point with which the driver leaves the block-size selection. -/
theorem blocking_nx (env : Env R) (m n lwork nb : Int) :
    (blocking env m n lwork nb).nx =
      if 1 < nb ∧ nb < min m n then
        (if max nb (env.query 3 m n) < min m n ∧ lwork < wrap32 ((m + n) * nb) ∧
            ¬ wrap32 ((m + n) * env.query 2 m n) ≤ lwork
          then min m n else max nb (env.query 3 m n))
      else min m n := by
  unfold blocking
  simp only [f2cmax_eq_max, f2cmin_eq_min, c__3, c__2, gt_iff_lt, ge_iff_le]
  split_ifs <;> first | rfl | (exfalso; tauto)

/-- Truncating and floor division agree on the operands of the shrink
`nb = *lwork / (*m + *n)` of a validated call. -/
theorem tdiv_eq_fdiv_of_nonneg (a b : Int) (ha : 0 ≤ a) (hb : 0 ≤ b) :
    Int.tdiv a b = Int.fdiv a b := by
  rw [Int.tdiv_eq_ediv ha hb, Int.fdiv_eq_ediv a hb]

/-- Floor division by a positive divisor: the defining bounds. -/
theorem fdiv_bounds (a b : Int) (hb : 0 < b) :
    b * Int.fdiv a b ≤ a ∧ a < b * (Int.fdiv a b + 1) := by
  rw [Int.fdiv_eq_ediv a (le_of_lt hb)]
  constructor
  · have := Int.ediv_mul_le a (ne_of_gt hb)
    rw [mul_comm]
    exact this
  · have := Int.lt_ediv_add_one_mul_self a hb
    rw [mul_comm]
    exact this

/-- In a validated call the block width that leaves the selection is never
negative. -/
theorem blocking_nb_nonneg (env : Env R) (m n lwork nb : Int) (hnb : 1 ≤ nb)
    (hlw : max (max 1 m) n ≤ lwork) :
    0 ≤ (blocking env m n lwork nb).nb := by
  rw [blocking_nb]
  have h1 : (1 : Int) ≤ max (max 1 m) n := le_trans (le_max_left 1 m) (le_max_left _ n)
  split_ifs with h2 h3
  · have hmin : nb < min m n := h2.2.1
    have hm : nb < m := lt_of_lt_of_le hmin (min_le_left _ _)
    have hn : nb < n := lt_of_lt_of_le hmin (min_le_right _ _)
    rw [tdiv_eq_fdiv_of_nonneg lwork (m + n) (by omega) (by omega),
      Int.fdiv_eq_ediv lwork (by omega)]
    exact Int.ediv_nonneg (by omega) (by omega)
  · decide
  · omega

/-- Whenever the test of the main loop holds at a panel start `i >= 1` of a
validated call, either the block width is the one computed at entry and
`lwork` is not below the 32-bit product `ws = (m+n)*nb`, or the block width
was shrunk and the workspace holds the two blocks, `(m+n)*nb <= lwork`; and
the block width does not exceed the crossover point. -/
theorem blocking_fits (env : Env R) (m n lwork nb i : Int) (hnb : 1 ≤ nb)
    (hlw : max (max 1 m) n ≤ lwork) (hi : 1 ≤ i)
    (ht : loopTest (blocking env m n lwork nb).nb i
      (f2cmin m n - (blocking env m n lwork nb).nx) = true) :
    (((blocking env m n lwork nb).nb = nb ∧ wrap32 ((m + n) * nb) ≤ lwork) ∨
        (m + n) * (blocking env m n lwork nb).nb ≤ lwork) ∧
      (blocking env m n lwork nb).nb ≤ (blocking env m n lwork nb).nx ∧
      i + (blocking env m n lwork nb).nx ≤ min m n := by
  have h0 := blocking_nb_nonneg env m n lwork nb hnb hlw
  have h1 : (1 : Int) ≤ max (max 1 m) n := le_trans (le_max_left 1 m) (le_max_left _ n)
  have hle : i ≤ f2cmin m n - (blocking env m n lwork nb).nx := by
    unfold loopTest at ht
    rw [if_neg (by omega)] at ht
    simpa using ht
  rw [f2cmin_eq_min] at hle
  have hnx := blocking_nx env m n lwork nb
  have hb := blocking_nb env m n lwork nb
  generalize (blocking env m n lwork nb).nx = nx at hle hnx
  generalize (blocking env m n lwork nb).nb = b at hb h0
  split_ifs at hnx with h2 h3
  · omega
  · have hmin : nb < min m n := h2.2
    have hm : nb < m := lt_of_lt_of_le hmin (min_le_left _ _)
    have hn : nb < n := lt_of_lt_of_le hmin (min_le_right _ _)
    have hx : max nb (env.query 3 m n) < min m n := by omega
    by_cases h4 : lwork < wrap32 ((m + n) * nb)
    · have h5 : wrap32 ((m + n) * env.query 2 m n) ≤ lwork := by
        by_contra hc
        exact h3 ⟨hx, h4, hc⟩
      rw [if_pos ⟨h2.1, h2.2, hx, h4⟩, if_pos h5,
        tdiv_eq_fdiv_of_nonneg lwork (m + n) (by omega) (by omega)] at hb
      obtain ⟨hb1, hb2⟩ := fdiv_bounds lwork (m + n) (by omega : 0 < m + n)
      rw [← hb] at hb1 hb2
      refine ⟨Or.inr hb1, ?_, by omega⟩
      have : b < nb := by
        by_contra hc
        have := Int.mul_le_mul_of_nonneg_left (not_lt.mp hc) (by omega : 0 ≤ m + n)
        have := wrap32_le_of_nonneg ((m + n) * nb)
          (mul_nonneg (by omega) (by omega))
        omega
      have := le_max_left nb (env.query 3 m n)
      omega
    · rw [if_neg (fun hc => h4 hc.2.2.2)] at hb
      subst hb
      have := le_max_left b (env.query 3 m n)
      refine ⟨Or.inl ⟨rfl, by omega⟩, by omega, by omega⟩
  · omega

theorem panelState_shift [Zero R] [One R] [Neg R] (env : Env R)
    (m n lda nb ldwrkx ldwrky : Int) (k : Nat) :
    ∀ (i0 : Int) (st : St R),
      panelState env m n lda nb ldwrkx ldwrky i0 st (k + 1) =
        panelState env m n lda nb ldwrkx ldwrky (i0 + nb)
          (loopBody env m n lda nb ldwrkx ldwrky i0 st) k := by
  induction k with
  | zero =>
    intro i0 st
    simp [panelState]
  | succ k ih =>
    intro i0 st
    rw [panelState, ih i0 st]
    conv_rhs => rw [panelState]
    have : i0 + ((k + 1 : Nat) : Int) * nb = i0 + nb + (k : Int) * nb := by
      push_cast; ring
    rw [this]

/-- With a step `nb >= 1`, a loop whose first `K` panel starts pass the test
and whose next one fails it returns after exactly `K` iterations. -/
theorem mainLoop_run [Zero R] [One R] [Neg R] (env : Env R)
    (m n lda nb ldwrkx ldwrky i__1 : Int) (hnb : 1 ≤ nb) (K : Nat) :
    ∀ (i__ : Int) (st : St R) (fuel : Nat), K < fuel →
      (∀ k : Nat, k < K → i__ + k * nb ≤ i__1) → i__1 < i__ + K * nb →
      mainLoop env m n lda nb ldwrkx ldwrky i__1 fuel i__ st =
        some (i__ + K * nb, panelState env m n lda nb ldwrkx ldwrky i__ st K) := by
  induction K with
  | zero =>
    intro i__ st fuel hf _ hex
    obtain ⟨f, rfl⟩ : ∃ f, fuel = f + 1 := ⟨fuel - 1, by omega⟩
    rw [mainLoop]
    have ht : loopTest nb i__ i__1 = false := by
      unfold loopTest
      rw [if_neg (by omega)]
      simp only [decide_eq_false_iff_not]
      simp only [Nat.cast_zero, zero_mul, add_zero] at hex
      omega
    rw [ht]
    simp [panelState]
  | succ K ih =>
    intro i__ st fuel hf hin hex
    obtain ⟨f, rfl⟩ : ∃ f, fuel = f + 1 := ⟨fuel - 1, by omega⟩
    rw [mainLoop]
    have ht : loopTest nb i__ i__1 = true := by
      unfold loopTest
      rw [if_neg (by omega)]
      have := hin 0 (by omega)
      simp only [Nat.cast_zero, zero_mul, add_zero] at this
      simpa using this
    rw [ht, if_pos rfl]
    have hcast : i__ + ((K + 1 : Nat) : Int) * nb = i__ + nb + (K : Int) * nb := by
      push_cast; ring
    rw [ih (i__ + nb) _ f (by omega) (fun k hk => by
        have := hin (k + 1) (by omega)
        have hc : i__ + ((k + 1 : Nat) : Int) * nb = i__ + nb + (k : Int) * nb := by
          push_cast; ring
        rw [hc] at this
        exact this) (by rw [← hcast]; exact hex)]
    rw [panelState_shift, hcast]

/-- The trip count is the ceiling of `i1 / nb`. -/
theorem tripCount_bounds (i1 nb : Int) (hnb : 1 ≤ nb) :
    (∀ k : Nat, k < tripCount i1 nb → 1 + (k : Int) * nb ≤ i1) ∧
      i1 < 1 + (tripCount i1 nb : Int) * nb ∧
      (1 ≤ i1 → ((tripCount i1 nb : Int) - 1) * nb < i1 ∧ i1 ≤ (tripCount i1 nb : Int) * nb) ∧
      (i1 < 1 → tripCount i1 nb = 0) := by
  unfold tripCount
  by_cases h1 : 1 ≤ i1
  · rw [if_pos h1]
    obtain ⟨hb1, hb2⟩ := fdiv_bounds (i1 + nb - 1) nb (by omega)
    have hq0 : 0 ≤ Int.fdiv (i1 + nb - 1) nb := by
      rw [Int.fdiv_eq_ediv _ (by omega)]
      exact Int.ediv_nonneg (by omega) (by omega)
    have hK : ((Int.fdiv (i1 + nb - 1) nb).toNat : Int) = Int.fdiv (i1 + nb - 1) nb :=
      Int.toNat_of_nonneg hq0
    rw [hK]
    generalize Int.fdiv (i1 + nb - 1) nb = q at hb1 hb2 hq0 hK
    have e1 : nb * (q + 1) = nb * q + nb := by ring
    have e2 : (q - 1) * nb = nb * q - nb := by ring
    have e3 : q * nb = nb * q := by ring
    refine ⟨?_, by rw [e3]; omega, fun _ => ⟨by rw [e2]; omega, by rw [e3]; omega⟩,
      fun h => absurd h1 (by omega)⟩
    intro k hk
    have hk' : (k : Int) + 1 ≤ q := by omega
    have := Int.mul_le_mul_of_nonneg_left hk' (by omega : (0 : Int) ≤ nb)
    have e4 : nb * ((k : Int) + 1) = (k : Int) * nb + nb := by ring
    omega
  · rw [if_neg h1]
    refine ⟨fun k hk => absurd hk (by omega), by simpa using (by omega : i1 < 1),
      fun h => absurd h h1, fun _ => rfl⟩

/-- On exit of the main loop with a step `nb >= 0` the index is beyond the
bound, and it is either the start index (no iteration) or at most one step
beyond the bound. -/
theorem mainLoop_exit [Zero R] [One R] [Neg R] (env : Env R)
    (m n lda nb ldwrkx ldwrky i__1 : Int) (hnb : 0 ≤ nb) (fuel : Nat) :
    ∀ (i__ : Int) (st : St R) (r : Int × St R),
      mainLoop env m n lda nb ldwrkx ldwrky i__1 fuel i__ st = some r →
      i__1 < r.1 ∧ (r.1 = i__ ∨ (i__ ≤ i__1 ∧ r.1 ≤ i__1 + nb)) := by
  induction fuel with
  | zero => intro i__ st r h; simp [mainLoop] at h
  | succ k ih =>
    intro i__ st r h
    rw [mainLoop] at h
    cases ht : loopTest nb i__ i__1 with
    | false =>
      rw [ht] at h
      simp only [Bool.false_eq_true, if_false] at h
      injection h with h
      subst h
      unfold loopTest at ht
      rw [if_neg (by omega)] at ht
      simp only [decide_eq_false_iff_not] at ht
      exact ⟨by omega, Or.inl rfl⟩
    | true =>
      rw [ht, if_pos rfl] at h
      have hle : i__ ≤ i__1 := by
        unfold loopTest at ht
        rw [if_neg (by omega)] at ht
        simpa using ht
      obtain ⟨h1, h2⟩ := ih _ _ r h
      refine ⟨h1, Or.inr ⟨hle, ?_⟩⟩
      rcases h2 with h2 | h2 <;> omega

/-- The calls that the main loop adds to the trace are calls of `zlabrd_` and
`zgemm_` only. -/
theorem loopBody_trace_kinds [Zero R] [One R] [Neg R] (env : Env R)
    (m n lda nb ldwrkx ldwrky i__ : Int) (st : St R) :
    ∃ l : List (Call R), (loopBody env m n lda nb ldwrkx ldwrky i__ st).trace = st.trace ++ l ∧
      ∀ c ∈ l, c.isZgebd2 = false ∧ c.isCompute = true := by
  refine ⟨[Call.zlabrd_ (m - i__ + 1) (n - i__ + 1) nb ⟨Arr.a, i__ + i__ * lda⟩ lda
      ⟨Arr.d, i__⟩ ⟨Arr.e, i__⟩ ⟨Arr.tauq, i__⟩ ⟨Arr.taup, i__⟩
      ⟨Arr.work, 1⟩ ldwrkx ⟨Arr.work, ldwrkx * nb + 1⟩ ldwrky,
    Call.zgemm_ "No transpose" "Conjugate transpose" (m - i__ - nb + 1) (n - i__ - nb + 1) nb
      ⟨-1, 0⟩ ⟨Arr.a, i__ + nb + i__ * lda⟩ lda ⟨Arr.work, ldwrkx * nb + nb + 1⟩ ldwrky
      c_b1 ⟨Arr.a, i__ + nb + (i__ + nb) * lda⟩ lda,
    Call.zgemm_ "No transpose" "No transpose" (m - i__ - nb + 1) (n - i__ - nb + 1) nb
      ⟨-1, 0⟩ ⟨Arr.work, nb + 1⟩ ldwrkx ⟨Arr.a, i__ + (i__ + nb) * lda⟩ lda
      c_b1 ⟨Arr.a, i__ + nb + (i__ + nb) * lda⟩ lda], ?_, ?_⟩
  · simp [loopBody, trailingUpdate, St.zlabrd, St.zgemm]
  · intro c hc
    simp only [List.mem_cons, List.mem_singleton, List.not_mem_nil, or_false] at hc
    rcases hc with rfl | rfl | rfl <;> exact ⟨rfl, rfl⟩

theorem mainLoop_trace_kinds [Zero R] [One R] [Neg R] (env : Env R)
    (m n lda nb ldwrkx ldwrky i__1 : Int) (fuel : Nat) :
    ∀ (i__ : Int) (st : St R) (r : Int × St R),
      mainLoop env m n lda nb ldwrkx ldwrky i__1 fuel i__ st = some r →
      ∃ l : List (Call R), r.2.trace = st.trace ++ l ∧
        ∀ c ∈ l, c.isZgebd2 = false ∧ c.isCompute = true := by
  induction fuel with
  | zero => intro i__ st r h; simp [mainLoop] at h
  | succ k ih =>
    intro i__ st r h
    rw [mainLoop] at h
    split at h
    · obtain ⟨l1, h1, h1x⟩ := loopBody_trace_kinds env m n lda nb ldwrkx ldwrky i__ st
      obtain ⟨l2, h2, h2x⟩ := ih _ _ r h
      refine ⟨l1 ++ l2, ?_, ?_⟩
      · rw [h2, h1, List.append_assoc]
      · intro c hc
        rcases List.mem_append.mp hc with hc | hc
        · exact h1x c hc
        · exact h2x c hc
    · injection h with h
      subst h
      exact ⟨[], by simp, by simp⟩

theorem blocking_calls_not_zgebd2 (env : Env R) (m n lwork nb : Int) :
    ∀ c ∈ (blocking env m n lwork nb).calls, c.isZgebd2 = false := by
  intro c hc
  unfold blocking at hc
  dsimp only at hc
  split_ifs at hc <;>
    simp only [List.mem_cons, List.mem_singleton, List.not_mem_nil, or_false] at hc <;>
    (rcases hc with rfl | rfl <;> rfl)

/-- Row and column of a column-major entry are recovered by remainder and
quotient by the leading dimension. -/
theorem decode_entry (ld r cc : Int) (hr0 : 0 ≤ r) (hr : r < ld) :
    (r + cc * ld) % ld = r ∧ (r + cc * ld) / ld = cc := by
  constructor
  · rw [Int.add_mul_emod_self]
    exact Int.emod_eq_of_lt hr0 hr
  · rw [Int.add_mul_ediv_right _ _ (by omega : ld ≠ 0), Int.ediv_eq_zero_of_lt hr0 hr]
    omega

theorem zgemmExact_a_in [CommRing R] (transa transb : String) (m n k : Int)
    (alpha : doublecomplex R) (a : Ptr) (lda : Int) (b : Ptr) (ldb : Int)
    (beta : doublecomplex R) (p ldc : Int) (mem : Mem R) (r cc : Int)
    (hld : max 1 m ≤ ldc) (hr0 : 0 ≤ r) (hr : r < m) (hc0 : 0 ≤ cc) (hc : cc < n) :
    (zgemmExact transa transb m n k alpha a lda b ldb beta ⟨Arr.a, p⟩ ldc mem).a
        (p + r + cc * ldc) =
      cadd (cmul alpha (csum (fun l =>
          cmul (opElem mem transa a lda r l) (opElem mem transb b ldb l cc)) k.toNat))
        (cmul beta (mem.a (p + r + cc * ldc))) := by
  obtain ⟨h1, h2⟩ := decode_entry ldc r cc hr0 (by omega)
  have e : p + r + cc * ldc - p = r + cc * ldc := by ring
  simp only [zgemmExact, e, h1, h2, Mem.getC]
  rw [if_pos ⟨hld, hr, hc0, hc⟩]

theorem zgemmExact_a_out [CommRing R] (transa transb : String) (m n k : Int)
    (alpha : doublecomplex R) (a : Ptr) (lda : Int) (b : Ptr) (ldb : Int)
    (beta : doublecomplex R) (p ldc : Int) (mem : Mem R) (x : Int)
    (hx : ¬ inSub ldc p m n x) :
    (zgemmExact transa transb m n k alpha a lda b ldb beta ⟨Arr.a, p⟩ ldc mem).a x =
      mem.a x := by
  simp only [zgemmExact, Mem.getC]
  rw [if_neg]
  rintro ⟨hld, hr, hc0, hc⟩
  apply hx
  refine ⟨(x - p) % ldc, (x - p) / ldc, Int.emod_nonneg _ (by omega), hr, hc0, hc, ?_⟩
  have := Int.emod_add_ediv (x - p) ldc
  have e : ldc * ((x - p) / ldc) = (x - p) / ldc * ldc := by ring
  omega

theorem zgemmExact_a_frame [CommRing R] (transa transb : String) (m n k : Int)
    (alpha : doublecomplex R) (a : Ptr) (lda : Int) (b : Ptr) (ldb : Int)
    (beta : doublecomplex R) (p ldc : Int) (mem : Mem R) :
    (zgemmExact transa transb m n k alpha a lda b ldb beta ⟨Arr.a, p⟩ ldc mem).work = mem.work ∧
    (zgemmExact transa transb m n k alpha a lda b ldb beta ⟨Arr.a, p⟩ ldc mem).d = mem.d ∧
    (zgemmExact transa transb m n k alpha a lda b ldb beta ⟨Arr.a, p⟩ ldc mem).e = mem.e ∧
    (zgemmExact transa transb m n k alpha a lda b ldb beta ⟨Arr.a, p⟩ ldc mem).tauq = mem.tauq ∧
    (zgemmExact transa transb m n k alpha a lda b ldb beta ⟨Arr.a, p⟩ ldc mem).taup = mem.taup :=
  ⟨rfl, rfl, rfl, rfl, rfl⟩

/-- The update `(-1) * s + 1 * x` is `x - s`. -/
theorem cmul_neg_one_add [CommRing R] (s x : doublecomplex R) :
    cadd (cmul ⟨-1, 0⟩ s) (cmul c_b1 x) = csub x s := by
  cases s
  cases x
  simp only [cadd, cmul, csub, c_b1, doublecomplex.mk.injEq]
  constructor <;> ring

theorem csum_congr [CommRing R] (f g : Nat → doublecomplex R) (k : Nat)
    (h : ∀ l, l < k → f l = g l) : csum f k = csum g k := by
  induction k with
  | zero => rfl
  | succ k ih =>
    rw [csum, csum, ih (fun l hl => h l (by omega)), h k (by omega)]

/-! ### Lemmas on the matrix-vector kernel -/

theorem plainRows_done {K : Type} [CommRing K] (ALPHA : K) (A X : Int → K)
    (LDA INCY M j k i : Int) (Y : Int → K) (h : M ≤ i) :
    plainRows ALPHA A X LDA INCY M j k i Y = Y := by
  rw [plainRows, if_neg (by omega)]

theorem plainRows_step {K : Type} [CommRing K] (ALPHA : K) (A X : Int → K)
    (LDA INCY M j k i : Int) (Y : Int → K) (h : i < M) :
    plainRows ALPHA A X LDA INCY M j k i Y =
      plainRows ALPHA A X LDA INCY M j k (i + 1)
        (store Y (i * INCY) (Y (i * INCY) + ALPHA * A (LDA * j + i) * X k)) := by
  rw [plainRows, if_pos h]

/-- The plain inner loop up to `M` is the loop up to `mid` followed by the loop
from `mid`. -/
theorem plainRows_split {K : Type} [CommRing K] (ALPHA : K) (A X : Int → K)
    (LDA INCY M j k mid : Int) (hmid : mid ≤ M) (d : Nat) :
    ∀ (i : Int) (Y : Int → K), (mid - i).toNat = d → i ≤ mid →
      plainRows ALPHA A X LDA INCY M j k i Y =
        plainRows ALPHA A X LDA INCY M j k mid (plainRows ALPHA A X LDA INCY mid j k i Y) := by
  induction d with
  | zero =>
    intro i Y hd hi
    have : i = mid := by omega
    subst this
    rw [plainRows_done ALPHA A X LDA INCY i j k i Y (le_refl _)]
  | succ d ih =>
    intro i Y hd hi
    rw [plainRows_step ALPHA A X LDA INCY M j k i Y (by omega),
      plainRows_step ALPHA A X LDA INCY mid j k i Y (by omega)]
    exact ih (i + 1) _ (by omega) (by omega)

theorem remainderLoop_plain {K : Type} [CommRing K] (body : LoopMacro K)
    (P : RowState K → Prop) (ALPHA : K) (A X : Int → K) (LDA INCY M j k : Int)
    (hsim : Simulates body P ALPHA A X LDA INCY j k) (d : Nat) :
    ∀ s : RowState K, (M - s.i).toNat = d → P s →
      (remainderLoop body M s).Y = plainRows ALPHA A X LDA INCY M j k s.i s.Y := by
  induction d with
  | zero =>
    intro s hd _
    rw [remainderLoop, if_neg (by omega), plainRows_done _ _ _ _ _ _ _ _ _ _ (by omega)]
  | succ d ih =>
    intro s hd hP
    obtain ⟨hP1, hY1⟩ := hsim s hP
    rw [remainderLoop, if_pos (by omega), plainRows_step _ _ _ _ _ _ _ _ _ _ (by omega),
      ih (body.run s) (by rw [body.inc]; omega) hP1, body.inc, hY1]

theorem unrolledLoop_plain {K : Type} [CommRing K] (body : LoopMacro K)
    (P : RowState K → Prop) (ALPHA : K) (A X : Int → K) (LDA INCY tMQ j k : Int)
    (hsim : Simulates body P ALPHA A X LDA INCY j k) (d : Nat) :
    ∀ s : RowState K, tMQ - s.i = 4 * d → P s →
      (unrolledLoop body tMQ s).Y = plainRows ALPHA A X LDA INCY tMQ j k s.i s.Y ∧
      (unrolledLoop body tMQ s).i = tMQ ∧ P (unrolledLoop body tMQ s) := by
  induction d with
  | zero =>
    intro s hd hP
    rw [unrolledLoop, if_neg (by omega), plainRows_done _ _ _ _ _ _ _ _ _ _ (by omega)]
    exact ⟨rfl, by omega, hP⟩
  | succ d ih =>
    intro s hd hP
    obtain ⟨hP1, hY1⟩ := hsim s hP
    obtain ⟨hP2, hY2⟩ := hsim _ hP1
    obtain ⟨hP3, hY3⟩ := hsim _ hP2
    obtain ⟨hP4, hY4⟩ := hsim _ hP3
    have hi4 : (body.run (body.run (body.run (body.run s)))).i = s.i + 4 := by
      simp only [body.inc]
      omega
    push_cast at hd
    rw [unrolledLoop, if_pos (by omega)]
    obtain ⟨hY, hi, hPr⟩ := ih _ (by rw [hi4]; omega) hP4
    refine ⟨?_, hi, hPr⟩
    rw [hY, hi4, hY4, hY3, hY2, hY1]
    simp only [body.inc]
    rw [plainRows_step ALPHA A X LDA INCY tMQ j k s.i s.Y (by omega),
      plainRows_step ALPHA A X LDA INCY tMQ j k (s.i + 1) _ (by omega),
      plainRows_step ALPHA A X LDA INCY tMQ j k (s.i + 1 + 1) _ (by omega),
      plainRows_step ALPHA A X LDA INCY tMQ j k (s.i + 1 + 1 + 1) _ (by omega)]
    have e : s.i + 1 + 1 + 1 + 1 = s.i + 4 := by ring
    rw [e]

/-- For `M >= 0` the bound `tMQ = M - M % 4` of the unrolled loop is a multiple
of 4 between 0 and `M`. -/
theorem tMQ_facts (M : Int) (hM : 0 ≤ M) :
    ∃ d : Nat, M - Int.tmod M 4 = 4 * d ∧ M - Int.tmod M 4 ≤ M := by
  rw [Int.tmod_eq_emod hM (by decide)]
  refine ⟨((M - M % 4) / 4).toNat, ?_, by omega⟩
  rw [Int.toNat_of_nonneg (by omega)]
  omega

/-- One column of a code path: the unrolled loop followed by the remainder
loop is the plain inner loop over the rows `0..M-1`. -/
theorem column_plain {K : Type} [CommRing K] (body : LoopMacro K)
    (P : RowState K → Prop) (ALPHA : K) (A X : Int → K) (LDA INCY M j k : Int)
    (hsim : Simulates body P ALPHA A X LDA INCY j k) (hM : 0 ≤ M) (Y : Int → K)
    (hP : P { i := 0, h := 0, Y := Y }) :
    (remainderLoop body M (unrolledLoop body (M - Int.tmod M 4) { i := 0, h := 0, Y := Y })).Y =
      plainRows ALPHA A X LDA INCY M j k 0 Y := by
  obtain ⟨d, hd, hle⟩ := tMQ_facts M hM
  obtain ⟨hY, hi, hPr⟩ := unrolledLoop_plain body P ALPHA A X LDA INCY (M - Int.tmod M 4) j k
    hsim d { i := 0, h := 0, Y := Y } (by simpa using hd) hP
  rw [remainderLoop_plain body P ALPHA A X LDA INCY M j k hsim _ _ rfl hPr, hi, hY]
  exact (plainRows_split ALPHA A X LDA INCY M j k (M - Int.tmod M 4) hle _ 0 Y rfl
    (by omega)).symm

theorem columnLoop_plain {K : Type} [CommRing K] (body : Int → Int → LoopMacro K)
    (P : RowState K → Prop) (ALPHA : K) (A X : Int → K) (LDA INCX INCY M N : Int)
    (hsim : ∀ j, Simulates (body j (j * INCX)) P ALPHA A X LDA INCY j (j * INCX))
    (hP : ∀ Y, P { i := 0, h := 0, Y := Y }) (hM : 0 ≤ M) (d : Nat) :
    ∀ (j k : Int) (Y : Int → K), (N - j).toNat = d → k = j * INCX →
      columnLoop body M N INCX (M - Int.tmod M 4) j k Y =
        plainCols ALPHA A X LDA INCX INCY M N j Y := by
  induction d with
  | zero =>
    intro j k Y hd _
    rw [columnLoop, if_neg (by omega), plainCols, if_neg (by omega)]
  | succ d ih =>
    intro j k Y hd hk
    subst hk
    rw [columnLoop, if_pos (by omega), plainCols, if_pos (by omega)]
    simp only []
    rw [column_plain (body j (j * INCX)) P ALPHA A X LDA INCY M j (j * INCX) (hsim j) hM Y (hP Y)]
    exact ih (j + 1) _ _ (by omega) (by ring)

theorem spec_loop_simulates {K : Type} [CommRing K] (ALPHA : K) (A X : Int → K)
    (LDA j k : Int) :
    Simulates (spec_loop ALPHA A X LDA j k) (fun _ => True) ALPHA A X LDA 1 j k := by
  intro s _
  refine ⟨trivial, ?_⟩
  simp only [spec_loop, mul_one]

theorem spec_loop_alpha1_simulates {K : Type} [CommRing K] (A X : Int → K)
    (LDA j k : Int) :
    Simulates (spec_loop_alpha1 A X LDA j k) (fun _ => True) 1 A X LDA 1 j k := by
  intro s _
  refine ⟨trivial, ?_⟩
  simp only [spec_loop_alpha1, mul_one, one_mul]

theorem norm_loop_simulates {K : Type} [CommRing K] (ALPHA : K) (A X : Int → K)
    (LDA INCY j k : Int) :
    Simulates (norm_loop ALPHA A X LDA INCY j k) (fun s => s.h = s.i * INCY)
      ALPHA A X LDA INCY j k := by
  intro s hs
  refine ⟨?_, ?_⟩
  · simp only [norm_loop]
    rw [hs]
    ring
  · simp only [norm_loop, hs]

theorem norm_loop_alpha1_simulates {K : Type} [CommRing K] (A X : Int → K)
    (LDA INCY j k : Int) :
    Simulates (norm_loop_alpha1 A X LDA INCY j k) (fun s => s.h = s.i * INCY)
      1 A X LDA INCY j k := by
  intro s hs
  refine ⟨?_, ?_⟩
  · simp only [norm_loop_alpha1]
    rw [hs]
    ring
  · simp only [norm_loop_alpha1, hs, one_mul]

/-- The plain inner loop with a positive increment adds the term of row `i'` at
position `i' * INCY` and leaves every other position alone. -/
theorem plainRows_apply {K : Type} [CommRing K] (ALPHA : K) (A X : Int → K)
    (LDA INCY M j k : Int) (hY : 1 ≤ INCY) (d : Nat) :
    ∀ (i : Int) (Y : Int → K), (M - i).toNat = d →
      (∀ p, (∀ i', i ≤ i' → i' < M → p ≠ i' * INCY) →
        plainRows ALPHA A X LDA INCY M j k i Y p = Y p) ∧
      (∀ i', i ≤ i' → i' < M →
        plainRows ALPHA A X LDA INCY M j k i Y (i' * INCY) =
          Y (i' * INCY) + ALPHA * A (LDA * j + i') * X k) := by
  induction d with
  | zero =>
    intro i Y hd
    rw [plainRows_done _ _ _ _ _ _ _ _ _ _ (by omega)]
    exact ⟨fun _ _ => rfl, fun i' h1 h2 => absurd h2 (by omega)⟩
  | succ d ih =>
    intro i Y hd
    rw [plainRows_step _ _ _ _ _ _ _ _ _ _ (by omega)]
    obtain ⟨ho, hin⟩ := ih (i + 1)
      (store Y (i * INCY) (Y (i * INCY) + ALPHA * A (LDA * j + i) * X k)) (by omega)
    constructor
    · intro p hp
      rw [ho p (fun i' h1 h2 => hp i' (by omega) h2),
        store_other _ _ _ _ (hp i (le_refl i) (by omega))]
    · intro i' h1 h2
      rcases eq_or_lt_of_le h1 with heq | hlt
      · subst heq
        rw [ho (i * INCY) (fun q hq1 _ hc => by
          have h3 : (q - i) * INCY = 0 := by linarith [hc, sub_mul q i INCY]
          rcases mul_eq_zero.mp h3 with h4 | h4 <;> omega), store_same]
      · have hne : i' * INCY ≠ i * INCY := fun hc => by
          have h3 : (i' - i) * INCY = 0 := by linarith [hc, sub_mul i' i INCY]
          rcases mul_eq_zero.mp h3 with h4 | h4 <;> omega
        rw [hin i' (by omega) h2, store_other _ _ _ _ hne]

/-- The plain double loop from column `j` adds, at position `i' * INCY`, the
terms of the remaining columns. -/
theorem plainCols_apply {K : Type} [CommRing K] (ALPHA : K) (A X : Int → K)
    (LDA INCX INCY M N : Int) (hY : 1 ≤ INCY) (d : Nat) :
    ∀ (j : Int) (Y : Int → K), (N - j).toNat = d →
      (∀ p, (∀ i', 0 ≤ i' → i' < M → p ≠ i' * INCY) →
        plainCols ALPHA A X LDA INCX INCY M N j Y p = Y p) ∧
      (∀ i', 0 ≤ i' → i' < M →
        plainCols ALPHA A X LDA INCX INCY M N j Y (i' * INCY) =
          Y (i' * INCY) + ALPHA * ∑ l in Finset.range d,
            A (LDA * (j + l) + i') * X ((j + l) * INCX)) := by
  induction d with
  | zero =>
    intro j Y hd
    rw [plainCols, if_neg (by omega)]
    exact ⟨fun _ _ => rfl, fun i' _ _ => by simp⟩
  | succ d ih =>
    intro j Y hd
    rw [plainCols, if_pos (by omega)]
    obtain ⟨ho, hin⟩ := ih (j + 1) (plainRows ALPHA A X LDA INCY M j (j * INCX) 0 Y) (by omega)
    obtain ⟨hro, hrin⟩ := plainRows_apply ALPHA A X LDA INCY M j (j * INCX) hY _ 0 Y rfl
    constructor
    · intro p hp
      rw [ho p hp, hro p hp]
    · intro i' h1 h2
      rw [hin i' h1 h2, hrin i' h1 h2, Finset.sum_range_succ']
      simp only [Nat.cast_add, Nat.cast_one, Nat.cast_zero, add_zero]
      have e : ∀ l : Nat, j + 1 + (l : Int) = j + ((l : Int) + 1) := fun l => by ring
      simp only [e]
      ring

theorem abs_increment (INC : Int) : (if INC < 0 then -INC else INC) = |INC| := by
  split
  · rw [abs_of_neg (by assumption)]
  · rw [abs_of_nonneg (by omega)]

/-- For `ALPHA != 0` and `M >= 0` each of the four code paths of the kernel
returns 0 and leaves in `Y` the result of the plain double loop run with the
absolute values of the increments. -/
theorem CNAME_eq_plain {K : Type} [CommRing K] [DecidableEq K] (M N UNUSED : Int)
    (ALPHA : K) (LDA INCX INCY : Int) (mem : GemvMem K) (hM : 0 ≤ M) (hA : ALPHA ≠ 0) :
    CNAME M N UNUSED ALPHA LDA INCX INCY mem =
      (0, { mem with Y := plainCols ALPHA mem.A mem.X LDA |INCX| |INCY| M N 0 mem.Y }) := by
  unfold CNAME
  simp only [abs_increment]
  rw [if_neg hA]
  by_cases h1 : ALPHA = 1
  · rw [if_pos h1]
    by_cases hy : |INCY| = 1
    · rw [if_pos hy, hy, h1]
      rw [columnLoop_plain (fun j k => spec_loop_alpha1 mem.A mem.X LDA j k) (fun _ => True) 1
        mem.A mem.X LDA |INCX| 1 M N (fun j => spec_loop_alpha1_simulates _ _ _ _ _)
        (fun _ => trivial) hM _ 0 0 mem.Y rfl (by ring)]
    · rw [if_neg hy, h1]
      rw [columnLoop_plain (fun j k => norm_loop_alpha1 mem.A mem.X LDA |INCY| j k)
        (fun s => s.h = s.i * |INCY|) 1
        mem.A mem.X LDA |INCX| |INCY| M N (fun j => norm_loop_alpha1_simulates _ _ _ _ _ _)
        (fun _ => by simp) hM _ 0 0 mem.Y rfl (by ring)]
  · rw [if_neg h1]
    by_cases hy : |INCY| = 1
    · rw [if_pos hy, hy]
      rw [columnLoop_plain (fun j k => spec_loop ALPHA mem.A mem.X LDA j k) (fun _ => True) ALPHA
        mem.A mem.X LDA |INCX| 1 M N (fun j => spec_loop_simulates _ _ _ _ _ _)
        (fun _ => trivial) hM _ 0 0 mem.Y rfl (by ring)]
    · rw [if_neg hy]
      rw [columnLoop_plain (fun j k => norm_loop ALPHA mem.A mem.X LDA |INCY| j k)
        (fun s => s.h = s.i * |INCY|) ALPHA
        mem.A mem.X LDA |INCX| |INCY| M N (fun j => norm_loop_simulates _ _ _ _ _ _ _)
        (fun _ => by simp) hM _ 0 0 mem.Y rfl (by ring)]

/-- The remainder loop leaves the row index at `M` when it is entered at an
index `i <= M`. -/
theorem remainderLoop_index {K : Type} [CommRing K] (body : LoopMacro K) (M : Int) (d : Nat) :
    ∀ s : RowState K, (M - s.i).toNat = d → s.i ≤ M → (remainderLoop body M s).i = M := by
  induction d with
  | zero =>
    intro s hd hle
    rw [remainderLoop, if_neg (by omega)]
    omega
  | succ d ih =>
    intro s hd hle
    rw [remainderLoop, if_pos (by omega)]
    exact ih (body.run s) (by rw [body.inc]; omega) (by rw [body.inc]; omega)

/-- The unrolled loop leaves the row index at `tMQ` when it is entered at a
distance from `tMQ` that is a multiple of 4. -/
theorem unrolledLoop_index {K : Type} [CommRing K] (body : LoopMacro K) (tMQ : Int) (d : Nat) :
    ∀ s : RowState K, tMQ - s.i = 4 * d → (unrolledLoop body tMQ s).i = tMQ := by
  induction d with
  | zero =>
    intro s hd
    rw [unrolledLoop, if_neg (by omega)]
    omega
  | succ d ih =>
    intro s hd
    have hi4 : (body.run (body.run (body.run (body.run s)))).i = s.i + 4 := by
      simp only [body.inc]
      omega
    push_cast at hd
    rw [unrolledLoop, if_pos (by omega)]
    exact ih _ (by rw [hi4]; omega)

/-- One column of any code path, `M >= 0`: the unrolled loop stops at
`tMQ = M - M % 4` and the remainder loop at `M`. -/
theorem column_index {K : Type} [CommRing K] (body : LoopMacro K) (M : Int) (hM : 0 ≤ M)
    (Y : Int → K) :
    (unrolledLoop body (M - Int.tmod M 4) { i := 0, h := 0, Y := Y }).i = M - Int.tmod M 4 ∧
    (remainderLoop body M
      (unrolledLoop body (M - Int.tmod M 4) { i := 0, h := 0, Y := Y })).i = M := by
  obtain ⟨d, hd, hle⟩ := tMQ_facts M hM
  have h1 := unrolledLoop_index body (M - Int.tmod M 4) d { i := 0, h := 0, Y := Y }
    (by simpa using hd)
  exact ⟨h1, remainderLoop_index body M _ _ rfl (by rw [h1]; exact hle)⟩

end Lemmas

/-! ## The claims -/

section Claims

variable {R : Type}

/-- C1: for every M, N, LDA and LWORK, every return of `zgebrd_` has INFO equal
to the first failing check in the order M < 0 (-1), N < 0 (-2),
LDA < max(1,M) (-4), LWORK < max(1,M,N) with LWORK not -1 (-10), and 0 when no
check fails; the calls of `xerbla_` in the trace are exactly one call
`xerbla_("ZGEBRD", -INFO)` when INFO < 0 and none otherwise; and when a check
fails the routine does return. -/
theorem zgebrd_info_first_failing_check [Zero R] [One R] [Neg R] [IntCast R]
    (env : Env R) (fuel : Nat)
    (m n lda lwork : Int) (mem : Mem R) :
    (∀ out, zgebrd_ env fuel m n lda lwork mem = some out →
      out.info = (if m < 0 then -1 else if n < 0 then -2
        else if lda < max 1 m then -4
        else if lwork < max (max 1 m) n ∧ lwork ≠ -1 then -10 else 0) ∧
      out.trace.filter Call.isXerbla =
        if out.info < 0 then [Call.xerbla_ "ZGEBRD" (-out.info) 6] else []) ∧
    ((m < 0 ∨ n < 0 ∨ lda < max 1 m ∨ (lwork < max (max 1 m) n ∧ lwork ≠ -1)) →
      ∃ out, zgebrd_ env fuel m n lda lwork mem = some out) := by
  have hE := checkArgs_eq m n lda lwork
  constructor
  · intro out hout
    by_cases h : checkArgs m n lda lwork (decide (lwork = -1)) < 0
    · rw [zgebrd_error_exit env fuel m n lda lwork mem h] at hout
      injection hout with hout
      subst hout
      refine ⟨hE, ?_⟩
      simp only [h, if_true]
      rfl
    · have h0 : checkArgs m n lda lwork (decide (lwork = -1)) = 0 :=
        le_antisymm (checkArgs_nonpos _ _ _ _ _) (not_lt.mp h)
      by_cases hq : lwork = -1
      · rw [zgebrd_query_exit env fuel m n lda lwork mem h hq] at hout
        injection hout with hout
        subst hout
        refine ⟨hE, ?_⟩
        simp only [h, if_false]
        rfl
      · by_cases hmin : f2cmin m n = 0
        · rw [zgebrd_quick_exit env fuel m n lda lwork mem h hq hmin] at hout
          injection hout with hout
          subst hout
          refine ⟨hE, ?_⟩
          simp only [h, if_false]
          rfl
        · rw [zgebrd_full env fuel m n lda lwork mem h hq hmin] at hout
          obtain ⟨r, hr, hro⟩ := Option.map_eq_some'.mp hout
          subst hro
          refine ⟨hE, ?_⟩
          simp only [h, if_false]
          obtain ⟨l, hl, hlx⟩ := mainLoop_trace env m n lda _ m n _ fuel 1 _ r hr
          simp only [St.zgebd2, hl, List.filter_append, List.append_assoc]
          have h1 : List.filter Call.isXerbla l = [] :=
            List.filter_eq_nil_iff.mpr (fun c hc => by simp [hlx c hc])
          have h2 : List.filter Call.isXerbla
              (blocking env m n lwork (f2cmax 1 (env.query c__1 m n))).calls = [] :=
            List.filter_eq_nil_iff.mpr
              (fun c hc => by simp [blocking_calls_not_xerbla env m n lwork _ c hc])
          rw [h1, h2]
          rfl
  · intro hbad
    have h : checkArgs m n lda lwork (decide (lwork = -1)) < 0 := by
      rw [hE]
      split_ifs <;> first | decide | (exfalso; tauto)
    exact ⟨_, zgebrd_error_exit env fuel m n lda lwork mem h⟩

/-- Witness of C1 at M = 3, N = 2, LDA = 2 (LDA < M): the call returns
INFO = -4 after one `xerbla_("ZGEBRD", 4)`. -/
theorem zgebrd_info_first_failing_check_witness :
    ∃ out, zgebrd_ sampleEnv 0 3 2 2 10 sampleMem = some out ∧ out.info = -4 ∧
      out.trace.filter Call.isXerbla = [Call.xerbla_ "ZGEBRD" 4 6] := by
  obtain ⟨h1, h2⟩ := zgebrd_info_first_failing_check sampleEnv 0 3 2 2 10 sampleMem
  obtain ⟨out, hout⟩ := h2 (by decide)
  obtain ⟨hi, ht⟩ := h1 out hout
  have hi4 : out.info = -4 := by rw [hi]; decide
  refine ⟨out, hout, hi4, ?_⟩
  rw [ht, hi4]
  rfl

/-- C5: quick return.  With valid arguments (M >= 0, N >= 0, LDA >= max(1,M),
LWORK >= max(1,M,N)) and min(M,N) = 0, `zgebrd_` returns INFO = 0 with
WORK(1) = 1, calls neither `zlabrd_`, `zgebd2_` nor `zgemm_`, and leaves A, D,
E, TAUQ, TAUP as on entry. -/
theorem zgebrd_quick_return [Zero R] [One R] [Neg R] [IntCast R]
    (env : Env R) (fuel : Nat) (m n lda lwork : Int) (mem : Mem R)
    (hm : 0 ≤ m) (hn : 0 ≤ n) (hlda : max 1 m ≤ lda) (hlwork : max (max 1 m) n ≤ lwork)
    (hmin : min m n = 0) :
    ∃ out, zgebrd_ env fuel m n lda lwork mem = some out ∧
      out.info = 0 ∧
      out.mem.work 1 = ⟨1, 0⟩ ∧
      (∀ c ∈ out.trace, c.isCompute = false) ∧
      out.mem.sameOutputs mem := by
  have hE := checkArgs_eq m n lda lwork
  have h0 : checkArgs m n lda lwork (decide (lwork = -1)) = 0 := by
    rw [hE, if_neg (by omega), if_neg (by omega), if_neg (by omega),
      if_neg (fun hc => absurd hc.1 (by omega))]
  have h : ¬ checkArgs m n lda lwork (decide (lwork = -1)) < 0 := by
    rw [h0]; decide
  have hq : lwork ≠ -1 := by
    have : (1 : Int) ≤ max (max 1 m) n := le_trans (le_max_left 1 m) (le_max_left _ n)
    omega
  have hmin2 : f2cmin m n = 0 := by rw [f2cmin_eq_min]; exact hmin
  refine ⟨_, zgebrd_quick_exit env fuel m n lda lwork mem h hq hmin2, h0, ?_, ?_, ?_⟩
  · simp [Mem.setWork, store]
  · intro c hc
    simp only [List.mem_singleton] at hc
    subst hc
    rfl
  · exact ⟨rfl, rfl, rfl, rfl, rfl⟩

/-- Witness of C5 at M = 0, N = 4, LDA = 1, LWORK = 4. -/
theorem zgebrd_quick_return_witness :
    ∃ out, zgebrd_ sampleEnv 0 0 4 1 4 sampleMem = some out ∧
      out.info = 0 ∧
      out.mem.work 1 = ⟨1, 0⟩ ∧
      (∀ c ∈ out.trace, c.isCompute = false) ∧
      out.mem.sameOutputs sampleMem :=
  zgebrd_quick_return sampleEnv 0 0 4 1 4 sampleMem (by decide) (by decide) (by decide)
    (by decide) (by decide)

/-- C6: whenever `zgebrd_` returns INFO < 0 it has called neither `zlabrd_`,
`zgebd2_` nor `zgemm_`, and A, D, E, TAUQ and TAUP are as on entry. -/
theorem zgebrd_error_frame [Zero R] [One R] [Neg R] [IntCast R]
    (env : Env R) (fuel : Nat) (m n lda lwork : Int) (mem : Mem R)
    (out : Out R) (hout : zgebrd_ env fuel m n lda lwork mem = some out)
    (hinfo : out.info < 0) :
    (∀ c ∈ out.trace, c.isCompute = false) ∧ out.mem.sameOutputs mem := by
  have hE := (zgebrd_info_order_aux env fuel m n lda lwork mem out hout)
  have h : checkArgs m n lda lwork (decide (lwork = -1)) < 0 := by
    rw [← hE]; exact hinfo
  rw [zgebrd_error_exit env fuel m n lda lwork mem h] at hout
  injection hout with hout
  subst hout
  refine ⟨?_, sameOutputs_setWork _ _ _⟩
  intro c hc
  simp only [List.mem_cons, List.mem_singleton, List.not_mem_nil, or_false] at hc
  rcases hc with rfl | rfl <;> rfl

/-- Witness of C6 at M = -1 (N = 2, LDA = 1, LWORK = 5): the call returns
INFO = -1 and the arrays A, D, E, TAUQ, TAUP are as on entry. -/
theorem zgebrd_error_frame_witness :
    ∃ out, zgebrd_ sampleEnv 0 (-1) 2 1 5 sampleMem = some out ∧ out.info = -1 ∧
      (∀ c ∈ out.trace, c.isCompute = false) ∧ out.mem.sameOutputs sampleMem := by
  have h : checkArgs (-1) 2 1 5 (decide ((5 : Int) = -1)) < 0 := by decide
  have hout := zgebrd_error_exit sampleEnv 0 (-1) 2 1 5 sampleMem h
  exact ⟨_, hout, by decide,
    zgebrd_error_frame sampleEnv 0 (-1) 2 1 5 sampleMem _ hout (by decide)⟩

/-- C3, evaluated at the failing input M = 0, N = 0, LDA = 1, LWORK = -1: the
size query returns INFO = 0 with WORK(1) = (0+0)*32 = 0, which is below
max(1,M,N) = 1. -/
theorem zgebrd_query_size_zero_by_zero :
    (zgebrd_ sampleEnv 0 0 0 1 (-1) sampleMem).map (fun o => (o.info, o.mem.work 1)) =
        some (0, ⟨0, 0⟩) ∧
      ((0 : Int) : Rat) < ((max (max 1 0) 0 : Int) : Rat) := by
  constructor
  · decide
  · norm_num

/-- C4, evaluated at the failing input M = 0, N = 0, LDA = 1: the size query
leaves 0 in WORK(1), and the second call with LWORK = 0 is rejected with
INFO = -10 after one `xerbla_("ZGEBRD", 10)`. -/
theorem zgebrd_requery_zero_by_zero :
    (zgebrd_ sampleEnv 0 0 0 1 (-1) sampleMem).map (fun o => (o.info, o.mem.work 1)) =
        some (0, ⟨0, 0⟩) ∧
      (zgebrd_ sampleEnv 0 0 0 1 0 sampleMem).map
          (fun o => (o.info, o.trace.filter Call.isXerbla)) =
        some (-10, [Call.xerbla_ "ZGEBRD" 10 6]) := by
  constructor <;> decide

/-- C8: the copy-back step of the iteration with panel start `i` (LDA >= 1, as
validated) leaves, for each j in i..i+NB-1, D(j)+0i in A(j,j) and E(j)+0i in
the adjacent off-diagonal entry (A(j,j+1) when M >= N, A(j+1,j) when M < N);
every other entry of A keeps its value, and D, E, TAUQ, TAUP and WORK are not
modified. -/
theorem copyBack_writes_bidiagonal_only [Zero R] (m n lda nb i__ : Int) (mem : Mem R)
    (hlda : 1 ≤ lda) :
    (∀ j, i__ ≤ j → j ≤ i__ + nb - 1 →
      (copyBack m n lda nb i__ mem).a (j + j * lda) = ⟨mem.d j, 0⟩ ∧
      (copyBack m n lda nb i__ mem).a
          (if m ≥ n then j + (j + 1) * lda else j + 1 + j * lda) = ⟨mem.e j, 0⟩) ∧
    (∀ x, (∀ j, i__ ≤ j → j ≤ i__ + nb - 1 →
        x ≠ j + j * lda ∧ x ≠ (if m ≥ n then j + (j + 1) * lda else j + 1 + j * lda)) →
      (copyBack m n lda nb i__ mem).a x = mem.a x) ∧
    (copyBack m n lda nb i__ mem).d = mem.d ∧
    (copyBack m n lda nb i__ mem).e = mem.e ∧
    (copyBack m n lda nb i__ mem).tauq = mem.tauq ∧
    (copyBack m n lda nb i__ mem).taup = mem.taup ∧
    (copyBack m n lda nb i__ mem).work = mem.work := by
  have h := copyBack_spec m n lda nb i__ mem hlda
  simp only [offDiag] at h
  exact h

/-- Witness of C8 at M = 3, N = 2, LDA = 3, NB = 2, panel start 1 on the sample
memory. -/
theorem copyBack_writes_bidiagonal_only_witness :
    (1 : Int) ≤ 3 ∧
    (copyBack 3 2 3 2 1 sampleMem).a (2 + 2 * 3) = ⟨sampleMem.d 2, 0⟩ ∧
    (copyBack 3 2 3 2 1 sampleMem).a (2 + (2 + 1) * 3) = ⟨sampleMem.e 2, 0⟩ ∧
    (copyBack 3 2 3 2 1 sampleMem).d = sampleMem.d :=
  have h := copyBack_writes_bidiagonal_only 3 2 3 2 1 sampleMem (by decide)
  ⟨by decide, (h.1 2 (by decide) (by decide)).1, (h.1 2 (by decide) (by decide)).2, h.2.2.1⟩

/-- C9: loop invariant of the driver.  Assume LDA >= 1 (as validated), that
`zlabrd_` writes A only inside the submatrix it is handed and D, E only from
the index it is handed, and that `zgemm_` writes A only inside its result
matrix and neither D nor E.  Then the invariant "for every 1 <= j < i,
A(j,j) = D(j)+0i and the adjacent off-diagonal entry (A(j,j+1) if M >= N,
A(j+1,j) if M < N) is E(j)+0i" holds at the first panel start i = 1, is
carried by every iteration from panel start i to i + NB, and so holds at every
later iteration boundary and on exit of the loop. -/
theorem mainLoop_invariant_processed [Zero R] [One R] [Neg R] (env : Env R)
    (m n lda nb ldwrkx ldwrky i__1 : Int) (hlda : 1 ≤ lda)
    (hl : env.zlabrdFrame) (hg : env.zgemmFrame) :
    (∀ mem : Mem R, Processed m n lda 1 mem) ∧
    (∀ (i__ : Int) (st : St R), Processed m n lda i__ st.mem →
      Processed m n lda (i__ + nb) (loopBody env m n lda nb ldwrkx ldwrky i__ st).mem) ∧
    (∀ (fuel : Nat) (i__ : Int) (st : St R) (r : Int × St R),
      Processed m n lda i__ st.mem →
      mainLoop env m n lda nb ldwrkx ldwrky i__1 fuel i__ st = some r →
      Processed m n lda r.1 r.2.mem) := by
  refine ⟨?_, ?_, ?_⟩
  · intro mem j h1 h2
    omega
  · exact loopBody_processed env m n lda nb ldwrkx ldwrky hlda hl hg
  · intro fuel
    exact mainLoop_processed env m n lda nb ldwrkx ldwrky i__1 hlda hl hg fuel

/-- Witness of C9: the sample environment on a 4-by-4 matrix (LDA = 4) with
NB = 2 and loop bound 2 runs one iteration from panel start 1, leaves the loop
at i = 3, and the invariant holds there. -/
theorem mainLoop_invariant_processed_witness :
    ∃ r, mainLoop sampleEnv 4 4 4 2 4 4 2 3 1 ⟨sampleMem, []⟩ = some r ∧ r.1 = 3 ∧
      Processed 4 4 4 3 r.2.mem := by
  have h := mainLoop_invariant_processed sampleEnv 4 4 4 2 4 4 2 (by decide)
    sampleEnv_zlabrdFrame sampleEnv_zgemmFrame
  refine ⟨_, rfl, rfl, ?_⟩
  exact h.2.2 3 1 ⟨sampleMem, []⟩ _ (h.1 sampleMem) rfl

/-- C11 as stated fails at M = 0, N = 3, LDA = 0, LWORK = 3: the leading
dimension is below max(1,M) = 1 and the call returns INFO = -4 after
`xerbla_("ZGEBRD", 4)` instead of INFO = 0. -/
theorem zgebrd_empty_matrix_bad_lda :
    (zgebrd_ sampleEnv 0 0 3 0 3 sampleMem).map
        (fun o => (o.info, o.trace.filter Call.isXerbla)) =
      some (-4, [Call.xerbla_ "ZGEBRD" 4 6]) := by
  decide

/-- C11, amended: for M = 0 or N = 0 (the other dimension non-negative) and
any LDA and LWORK, `zgebrd_` returns at once (for any fuel, without a call of
`zlabrd_`, `zgemm_` or `zgebd2_`) and leaves A, D, E, TAUQ, TAUP as on entry;
INFO is 0 exactly when LDA >= max(1,M) and LWORK is -1 or >= max(1,M,N). -/
theorem zgebrd_empty_matrix [Zero R] [One R] [Neg R] [IntCast R]
    (env : Env R) (fuel : Nat) (m n lda lwork : Int) (mem : Mem R)
    (hm : 0 ≤ m) (hn : 0 ≤ n) (hempty : m = 0 ∨ n = 0) :
    ∃ out, zgebrd_ env fuel m n lda lwork mem = some out ∧
      (∀ c ∈ out.trace, c.isCompute = false) ∧
      out.mem.sameOutputs mem ∧
      (out.info = 0 ↔ (max 1 m ≤ lda ∧ (lwork = -1 ∨ max (max 1 m) n ≤ lwork))) := by
  have hE := checkArgs_eq m n lda lwork
  have hiff : checkArgs m n lda lwork (decide (lwork = -1)) = 0 ↔
      (max 1 m ≤ lda ∧ (lwork = -1 ∨ max (max 1 m) n ≤ lwork)) := by
    rw [hE, if_neg (by omega), if_neg (by omega)]
    split_ifs with h1 h2
    · constructor
      · intro h; exact absurd h (by decide)
      · intro h
        have := h.1
        omega
    · constructor
      · intro h; exact absurd h (by decide)
      · intro h
        rcases h.2 with hq | hq
        · exact absurd hq h2.2
        · have := h2.1
          omega
    · constructor
      · intro _
        refine ⟨by omega, ?_⟩
        by_cases hq : lwork = -1
        · exact Or.inl hq
        · exact Or.inr (by
            by_contra hc
            exact h2 ⟨by omega, hq⟩)
      · intro _; rfl
  by_cases h : checkArgs m n lda lwork (decide (lwork = -1)) < 0
  · refine ⟨_, zgebrd_error_exit env fuel m n lda lwork mem h, ?_, sameOutputs_setWork _ _ _, ?_⟩
    · intro c hc
      simp only [List.mem_cons, List.mem_singleton, List.not_mem_nil, or_false] at hc
      rcases hc with rfl | rfl <;> rfl
    · exact hiff
  · by_cases hq : lwork = -1
    · refine ⟨_, zgebrd_query_exit env fuel m n lda lwork mem h hq, ?_,
        sameOutputs_setWork _ _ _, ?_⟩
      · intro c hc
        simp only [List.mem_singleton] at hc
        subst hc
        rfl
      · exact hiff
    · have hmin : f2cmin m n = 0 := by
        rw [f2cmin_eq_min]
        rcases hempty with h0 | h0
        · rw [h0]; exact min_eq_left hn
        · rw [h0]; exact min_eq_right hm
      refine ⟨_, zgebrd_quick_exit env fuel m n lda lwork mem h hq hmin, ?_,
        ⟨rfl, rfl, rfl, rfl, rfl⟩, ?_⟩
      · intro c hc
        simp only [List.mem_singleton] at hc
        subst hc
        rfl
      · exact hiff

/-- Witness of the amended C11 at M = 0, N = 3, LDA = 1, LWORK = 3: the call
returns INFO = 0 with the arrays untouched. -/
theorem zgebrd_empty_matrix_witness :
    ∃ out, zgebrd_ sampleEnv 0 0 3 1 3 sampleMem = some out ∧
      (∀ c ∈ out.trace, c.isCompute = false) ∧
      out.mem.sameOutputs sampleMem ∧ out.info = 0 := by
  obtain ⟨out, h1, h2, h3, h4⟩ :=
    zgebrd_empty_matrix sampleEnv 0 0 3 1 3 sampleMem (by decide) (by decide) (Or.inl rfl)
  exact ⟨out, h1, h2, h3, h4.mpr (by decide)⟩

/-- C17: with a block width NB >= 1, the main loop (bound min(M,N) - NX)
started at 1 returns, as soon as the fuel exceeds K, after exactly K
iterations at the panel starts i_k = 1 + k*NB, k = 0..K-1, with the index
1 + K*NB; every start satisfies i_k <= min(M,N) - NX; K is
ceil((min(M,N) - NX)/NB) if min(M,N) > NX (that is, (K-1)*NB < min(M,N) - NX
<= K*NB) and K = 0 otherwise. -/
theorem mainLoop_trip_count [Zero R] [One R] [Neg R] (env : Env R)
    (m n lda nb ldwrkx ldwrky minmn nx : Int) (hnb : 1 ≤ nb) (st : St R) :
    (∀ fuel : Nat, tripCount (minmn - nx) nb < fuel →
      mainLoop env m n lda nb ldwrkx ldwrky (minmn - nx) fuel 1 st =
        some (1 + (tripCount (minmn - nx) nb : Int) * nb,
          panelState env m n lda nb ldwrkx ldwrky 1 st (tripCount (minmn - nx) nb))) ∧
    (∀ k : Nat, k < tripCount (minmn - nx) nb → 1 + (k : Int) * nb ≤ minmn - nx) ∧
    (nx < minmn → ((tripCount (minmn - nx) nb : Int) - 1) * nb < minmn - nx ∧
      minmn - nx ≤ (tripCount (minmn - nx) nb : Int) * nb) ∧
    (¬ nx < minmn → tripCount (minmn - nx) nb = 0) := by
  obtain ⟨h1, h2, h3, h4⟩ := tripCount_bounds (minmn - nx) nb hnb
  refine ⟨?_, h1, fun h => h3 (by omega), fun h => h4 (by omega)⟩
  intro fuel hf
  exact mainLoop_run env m n lda nb ldwrkx ldwrky (minmn - nx) hnb _ 1 st fuel hf h1 h2

/-- Witness of C17: with NB = 4, min(M,N) = 8 and NX = 4 the loop makes
K = ceil(4/4) = 1 iteration (panel start 1) and leaves with index 5. -/
theorem mainLoop_trip_count_witness :
    (1 : Int) ≤ 4 ∧ tripCount (8 - 4) 4 = 1 ∧
      mainLoop smallEnv 8 8 8 4 8 8 (8 - 4) 2 1 ⟨sampleMem, []⟩ =
        some (1 + (tripCount (8 - 4) 4 : Int) * 4,
          panelState smallEnv 8 8 8 4 8 8 1 ⟨sampleMem, []⟩ (tripCount (8 - 4) 4)) :=
  ⟨by decide, by decide,
    (mainLoop_trip_count smallEnv 8 8 8 4 8 8 8 4 (by decide) ⟨sampleMem, []⟩).1 2
      (by decide)⟩

/-- C18: on every validated non-query call with min(M,N) > 0 that returns,
the main loop is left at an index i, the trace holds exactly one call of the
unblocked reducer, `zgebd2_` on the (M-i+1)-by-(N-i+1) submatrix at A(i,i)
with D, E, TAUQ, TAUP offset to index i and the workspace at WORK(1), and the
remainder size satisfies 1 <= min(M,N) - i + 1 <= NX. -/
theorem zgebrd_unblocked_tail [Zero R] [One R] [Neg R] [IntCast R]
    (env : Env R) (fuel : Nat) (m n lda lwork : Int) (mem : Mem R) (out : Out R)
    (hm : 0 ≤ m) (hn : 0 ≤ n) (hlda : max 1 m ≤ lda) (hlw : max (max 1 m) n ≤ lwork)
    (hmin : 0 < min m n)
    (hout : zgebrd_ env fuel m n lda lwork mem = some out) :
    ∃ (i : Int) (st : St R),
      mainLoop env m n lda (blocking env m n lwork (f2cmax 1 (env.query c__1 m n))).nb m n
        (f2cmin m n - (blocking env m n lwork (f2cmax 1 (env.query c__1 m n))).nx) fuel 1
        { mem := mem.setWork 1 ⟨((wrap32 ((m + n) * f2cmax 1 (env.query c__1 m n)) : Int) : R), 0⟩
          trace := [queryCall c__1 m n] ++
            (blocking env m n lwork (f2cmax 1 (env.query c__1 m n))).calls } = some (i, st) ∧
      out.trace.filter Call.isZgebd2 =
        [Call.zgebd2_ (m - i + 1) (n - i + 1) ⟨Arr.a, i + i * lda⟩ lda ⟨Arr.d, i⟩ ⟨Arr.e, i⟩
          ⟨Arr.tauq, i⟩ ⟨Arr.taup, i⟩ ⟨Arr.work, 1⟩] ∧
      1 ≤ min m n - i + 1 ∧
      min m n - i + 1 ≤ (blocking env m n lwork (f2cmax 1 (env.query c__1 m n))).nx := by
  have h1 : (1 : Int) ≤ max (max 1 m) n := le_trans (le_max_left 1 m) (le_max_left _ n)
  have hq : lwork ≠ -1 := by omega
  have h0 : checkArgs m n lda lwork (decide (lwork = -1)) = 0 := by
    rw [checkArgs_eq, if_neg (by omega), if_neg (by omega), if_neg (by omega),
      if_neg (fun hc => absurd hc.1 (by omega))]
  have h : ¬ checkArgs m n lda lwork (decide (lwork = -1)) < 0 := by
    rw [h0]; decide
  have hmin2 : f2cmin m n ≠ 0 := by rw [f2cmin_eq_min]; omega
  have hnb1 : (1 : Int) ≤ f2cmax 1 (env.query c__1 m n) := by
    rw [f2cmax_eq_max]; exact le_max_left _ _
  have hnb0 := blocking_nb_nonneg env m n lwork _ hnb1 hlw
  rw [zgebrd_full env fuel m n lda lwork mem h hq hmin2] at hout
  obtain ⟨r, hr, hro⟩ := Option.map_eq_some'.mp hout
  subst hro
  obtain ⟨l, hl, hlk⟩ := mainLoop_trace_kinds env m n lda _ m n _ fuel 1 _ r hr
  obtain ⟨hex1, hex2⟩ := mainLoop_exit env m n lda _ m n _ hnb0 fuel 1 _ r hr
  refine ⟨r.1, r.2, hr, ?_, ?_⟩
  · simp only [St.zgebd2, hl, List.filter_append, List.append_assoc]
    have e1 : List.filter Call.isZgebd2 l = [] :=
      List.filter_eq_nil_iff.mpr (fun c hc => by simp [(hlk c hc).1])
    have e2 : List.filter Call.isZgebd2
        (blocking env m n lwork (f2cmax 1 (env.query c__1 m n))).calls = [] :=
      List.filter_eq_nil_iff.mpr
        (fun c hc => by simp [blocking_calls_not_zgebd2 env m n lwork _ c hc])
    rw [e1, e2]
    rfl
  · rw [f2cmin_eq_min] at hex1 hex2
    rcases hex2 with hex2 | ⟨hex2, hex3⟩
    · rw [hex2]
      omega
    · have ht : loopTest (blocking env m n lwork (f2cmax 1 (env.query c__1 m n))).nb 1
          (f2cmin m n - (blocking env m n lwork (f2cmax 1 (env.query c__1 m n))).nx) = true := by
        unfold loopTest
        rw [if_neg (by omega), f2cmin_eq_min]
        simpa using hex2
      obtain ⟨_, hle, _⟩ := blocking_fits env m n lwork _ 1 hnb1 hlw (le_refl 1) ht
      omega

/-- Witness of C18 at M = N = 8, LDA = 8, LWORK = 64 with NB1 = 4, NX1 = 2:
the loop is left at i = 5 and `zgebd2_` is called once, on the 4-by-4
remainder at A(5,5). -/
theorem zgebrd_unblocked_tail_witness :
    ∃ out, zgebrd_ smallEnv 3 8 8 8 64 sampleMem = some out ∧
      out.trace.filter Call.isZgebd2 =
        [Call.zgebd2_ (8 - 5 + 1) (8 - 5 + 1) ⟨Arr.a, 5 + 5 * 8⟩ 8 ⟨Arr.d, 5⟩ ⟨Arr.e, 5⟩
          ⟨Arr.tauq, 5⟩ ⟨Arr.taup, 5⟩ ⟨Arr.work, 1⟩] := by
  have hsome : ∃ out, zgebrd_ smallEnv 3 8 8 8 64 sampleMem = some out := by
    have h : ¬ checkArgs 8 8 8 64 (decide ((64 : Int) = -1)) < 0 := by decide
    rw [zgebrd_full smallEnv 3 8 8 8 64 sampleMem h (by decide) (by decide)]
    exact ⟨_, rfl⟩
  obtain ⟨out, hout⟩ := hsome
  obtain ⟨i, st, hloop, htr, _, _⟩ := zgebrd_unblocked_tail smallEnv 3 8 8 8 64 sampleMem out
    (by decide) (by decide) (by decide) (by decide) (by decide) hout
  have hi : i = 5 := by
    have h5 := congrArg (Option.map Prod.fst) hloop
    simp only [Option.map_some'] at h5
    have h6 : Option.map Prod.fst (mainLoop smallEnv 8 8 8
        (blocking smallEnv 8 8 64 (f2cmax 1 (smallEnv.query c__1 8 8))).nb 8 8
        (f2cmin 8 8 - (blocking smallEnv 8 8 64 (f2cmax 1 (smallEnv.query c__1 8 8))).nx) 3 1
        { mem := sampleMem.setWork 1
            ⟨((wrap32 ((8 + 8) * f2cmax 1 (smallEnv.query c__1 8 8)) : Int) : Rat), 0⟩
          trace := [queryCall c__1 8 8] ++
            (blocking smallEnv 8 8 64 (f2cmax 1 (smallEnv.query c__1 8 8))).calls }) =
        some 5 := by decide
    rw [h6] at h5
    injection h5 with h5
    exact h5.symm
  subst hi
  exact ⟨out, hout, htr⟩

/-- C19: given a matrix multiply that computes C := alpha*op(A)*op(B) + beta*C
exactly (`env.zgemm_ = zgemmExact`), LDA >= max(1,M), a panel start i >= 1 and
NB >= 0, the two `zgemm_` calls of the iteration leave, for every row r in
i+NB..M and column c in i+NB..N,
A'(r,c) = A(r,c) - sum over k = 1..NB of A(r,i+k-1) * conj(Y(c-i+1,k))
          - sum over k = 1..NB of X(r-i+1,k) * A(i+k-1,c),
with X the block at WORK(1) with leading dimension M and Y the block at
WORK(M*NB+1) with leading dimension N (the sums run over l = k-1); no entry of
A outside A(i+NB:M, i+NB:N) is written, and WORK, D, E, TAUQ, TAUP are not
written. -/
theorem trailingUpdate_exact [CommRing R] (env : Env R) (m n lda nb i : Int) (st : St R)
    (hz : env.zgemm_ = zgemmExact) (hlda : max 1 m ≤ lda) (hi : 1 ≤ i) (hnb : 0 ≤ nb) :
    (∀ r c : Int, i + nb ≤ r → r ≤ m → i + nb ≤ c → c ≤ n →
      (trailingUpdate env m n lda nb m n i st).mem.a (r + c * lda) =
        csub (csub (st.mem.a (r + c * lda))
          (csum (fun l => cmul (st.mem.a (r + (i + l) * lda))
            (cconj (st.mem.work (m * nb + 1 + (c - i) + l * n)))) nb.toNat))
          (csum (fun l => cmul (st.mem.work (1 + (r - i) + l * m))
            (st.mem.a (i + l + c * lda))) nb.toNat)) ∧
    (∀ x, ¬ inSub lda (i + nb + (i + nb) * lda) (m - i - nb + 1) (n - i - nb + 1) x →
      (trailingUpdate env m n lda nb m n i st).mem.a x = st.mem.a x) ∧
    (trailingUpdate env m n lda nb m n i st).mem.work = st.mem.work ∧
    (trailingUpdate env m n lda nb m n i st).mem.d = st.mem.d ∧
    (trailingUpdate env m n lda nb m n i st).mem.e = st.mem.e ∧
    (trailingUpdate env m n lda nb m n i st).mem.tauq = st.mem.tauq ∧
    (trailingUpdate env m n lda nb m n i st).mem.taup = st.mem.taup := by
  have hN : ("No transpose" : String).front = 'N' := by decide
  have hC2 : ("Conjugate transpose" : String).front = 'C' := by decide
  have hCN : ¬ ('C' : Char) = 'N' := by decide
  simp only [trailingUpdate, St.zgemm, hz]
  generalize hm1 : zgemmExact "No transpose" "Conjugate transpose" (m - i - nb + 1)
    (n - i - nb + 1) nb (⟨-1, 0⟩ : doublecomplex R) ⟨Arr.a, i + nb + i * lda⟩ lda
    ⟨Arr.work, m * nb + nb + 1⟩ n c_b1 ⟨Arr.a, i + nb + (i + nb) * lda⟩ lda st.mem = mem1
  have hf1 := zgemmExact_a_frame "No transpose" "Conjugate transpose" (m - i - nb + 1)
    (n - i - nb + 1) nb (⟨-1, 0⟩ : doublecomplex R) ⟨Arr.a, i + nb + i * lda⟩ lda
    ⟨Arr.work, m * nb + nb + 1⟩ n c_b1 (i + nb + (i + nb) * lda) lda st.mem
  have ho1 := zgemmExact_a_out "No transpose" "Conjugate transpose" (m - i - nb + 1)
    (n - i - nb + 1) nb (⟨-1, 0⟩ : doublecomplex R) ⟨Arr.a, i + nb + i * lda⟩ lda
    ⟨Arr.work, m * nb + nb + 1⟩ n c_b1 (i + nb + (i + nb) * lda) lda st.mem
  have hi1 := zgemmExact_a_in "No transpose" "Conjugate transpose" (m - i - nb + 1)
    (n - i - nb + 1) nb (⟨-1, 0⟩ : doublecomplex R) ⟨Arr.a, i + nb + i * lda⟩ lda
    ⟨Arr.work, m * nb + nb + 1⟩ n c_b1 (i + nb + (i + nb) * lda) lda st.mem
  rw [hm1] at hf1 ho1 hi1
  obtain ⟨hw1, hd1, he1, htq1, htp1⟩ := hf1
  have hf2 := zgemmExact_a_frame "No transpose" "No transpose" (m - i - nb + 1)
    (n - i - nb + 1) nb (⟨-1, 0⟩ : doublecomplex R) ⟨Arr.work, nb + 1⟩ m
    ⟨Arr.a, i + (i + nb) * lda⟩ lda c_b1 (i + nb + (i + nb) * lda) lda mem1
  have ho2 := zgemmExact_a_out "No transpose" "No transpose" (m - i - nb + 1)
    (n - i - nb + 1) nb (⟨-1, 0⟩ : doublecomplex R) ⟨Arr.work, nb + 1⟩ m
    ⟨Arr.a, i + (i + nb) * lda⟩ lda c_b1 (i + nb + (i + nb) * lda) lda mem1
  have hi2 := zgemmExact_a_in "No transpose" "No transpose" (m - i - nb + 1)
    (n - i - nb + 1) nb (⟨-1, 0⟩ : doublecomplex R) ⟨Arr.work, nb + 1⟩ m
    ⟨Arr.a, i + (i + nb) * lda⟩ lda c_b1 (i + nb + (i + nb) * lda) lda mem1
  obtain ⟨hw2, hd2, he2, htq2, htp2⟩ := hf2
  refine ⟨?_, ?_, by rw [hw2, hw1], by rw [hd2, hd1], by rw [he2, he1],
    by rw [htq2, htq1], by rw [htp2, htp1]⟩
  · intro r c hr1 hr2 hc1 hc2
    have hidx : r + c * lda = i + nb + (i + nb) * lda + (r - i - nb) + (c - i - nb) * lda := by
      ring
    rw [hidx, hi2 (r - i - nb) (c - i - nb) (by omega) (by omega) (by omega) (by omega)
      (by omega), hi1 (r - i - nb) (c - i - nb) (by omega) (by omega) (by omega) (by omega)
      (by omega), cmul_neg_one_add, cmul_neg_one_add, ← hidx]
    congr 1
    · congr 1
      apply csum_congr
      intro l _
      simp only [opElem, hN, hC2, hCN, if_true, if_false, Mem.getC]
      congr 2
      · ring
      · congr 1
        ring
    · apply csum_congr
      intro l hl
      simp only [opElem, hN, if_true, Mem.getC]
      rw [hw1]
      congr 1
      · congr 1
        ring
      · have hout : ¬ inSub lda (i + nb + (i + nb) * lda) (m - i - nb + 1) (n - i - nb + 1)
            (i + (i + nb) * lda + l + (c - i - nb) * lda) := by
          rintro ⟨r1, c1, hr10, hr11, _, _, h⟩
          have hl' : (l : Int) < nb := by omega
          have h2 : (l : Int) - nb - r1 = (c1 - (c - i - nb)) * lda := by
            ring_nf
            ring_nf at h
            linarith
          rcases le_or_lt 0 (c1 - (c - i - nb)) with h3 | h3
          · have := mul_nonneg h3 (by omega : (0 : Int) ≤ lda)
            omega
          · have := mul_nonneg (by omega : (0 : Int) ≤ -(c1 - (c - i - nb)) - 1)
              (by omega : (0 : Int) ≤ lda)
            have e : (-(c1 - (c - i - nb)) - 1) * lda = -((c1 - (c - i - nb)) * lda) - lda := by
              ring
            omega
        rw [ho1 _ hout]
        congr 1
        ring
  · intro x hx
    rw [ho2 x hx, ho1 x hx]

/-- Witness of C19 on a 4-by-4 matrix (LDA = 4) with NB = 1 and panel start 1:
A'(2,2) = A(2,2) - A(2,1)*conj(Y(2,1)) - X(2,1)*A(1,2)
        = (10 - 10i) - (6 - 6i)*conj(6 + i) - (2 + i)*(9 - 9i) = -47 + 41i. -/
theorem trailingUpdate_exact_witness :
    max 1 (4 : Int) ≤ 4 ∧
      (trailingUpdate exactEnv 4 4 4 1 4 4 1 ⟨workMem, []⟩).mem.a (2 + 2 * 4) = ⟨-47, 41⟩ := by
  refine ⟨by decide, ?_⟩
  rw [(trailingUpdate_exact exactEnv 4 4 4 1 1 ⟨workMem, []⟩ rfl (by decide) (by decide)
    (by decide)).1 2 2 (by decide) (by decide) (by decide) (by decide)]
  have h1 : Int.toNat 1 = 1 := rfl
  simp only [h1, csum, csub, cadd, cmul, cconj, workMem, sampleMem, doublecomplex.mk.injEq]
  constructor <;> norm_num

/-- C12: the contract of the matrix-vector kernel in exact arithmetic.  For
every M >= 0, every N, scalar ALPHA, column-major A with stride LDA and INCY
non-zero, `CNAME` returns 0 and leaves
Y[i*|INCY|] = Y_in[i*|INCY|] + ALPHA * sum over j in 0..N-1 of
A[LDA*j+i] * X[j*|INCX|] for every i in 0..M-1; every other element of Y and
all of A, X and BUFFER are unchanged. -/
theorem CNAME_contract {K : Type} [CommRing K] [DecidableEq K] (M N UNUSED : Int)
    (ALPHA : K) (LDA INCX INCY : Int) (mem : GemvMem K) (hM : 0 ≤ M) (hY : INCY ≠ 0) :
    (CNAME M N UNUSED ALPHA LDA INCX INCY mem).1 = 0 ∧
    (∀ i, 0 ≤ i → i < M →
      (CNAME M N UNUSED ALPHA LDA INCX INCY mem).2.Y (i * |INCY|) =
        mem.Y (i * |INCY|) +
          ALPHA * ∑ j in Finset.range N.toNat, mem.A (LDA * j + i) * mem.X (j * |INCX|)) ∧
    (∀ p, (∀ i, 0 ≤ i → i < M → p ≠ i * |INCY|) →
      (CNAME M N UNUSED ALPHA LDA INCX INCY mem).2.Y p = mem.Y p) ∧
    (CNAME M N UNUSED ALPHA LDA INCX INCY mem).2.A = mem.A ∧
    (CNAME M N UNUSED ALPHA LDA INCX INCY mem).2.X = mem.X ∧
    (CNAME M N UNUSED ALPHA LDA INCX INCY mem).2.BUFFER = mem.BUFFER := by
  by_cases hA : ALPHA = 0
  · have h0 : CNAME M N UNUSED ALPHA LDA INCX INCY mem = (0, mem) := by
      unfold CNAME
      rw [if_pos hA]
    rw [h0, hA]
    refine ⟨rfl, fun i _ _ => by simp, fun _ _ => rfl, rfl, rfl, rfl⟩
  · rw [CNAME_eq_plain M N UNUSED ALPHA LDA INCX INCY mem hM hA]
    have hpos : 1 ≤ |INCY| := Int.one_le_abs hY
    obtain ⟨ho, hin⟩ := plainCols_apply ALPHA mem.A mem.X LDA |INCX| |INCY| M N hpos _ 0
      mem.Y rfl
    refine ⟨rfl, ?_, fun p hp => ho p hp, rfl, rfl, rfl⟩
    intro i h1 h2
    have := hin i h1 h2
    simp only [zero_add, Int.sub_zero] at this
    exact this

/-- Witness of C12 on the sample input with M = 5, N = 2, ALPHA = 3, LDA = 5,
INCX = -1, INCY = 2: the kernel returns 0 and
Y[2*2] = Y_in[4] + 3*(A[2]*X[0] + A[7]*X[1]) = 40 + 3*(2*1 + 7*2) = 88. -/
theorem CNAME_contract_witness :
    (CNAME 5 2 0 (3 : Rat) 5 (-1) 2 sampleGemv).1 = 0 ∧
      (CNAME 5 2 0 (3 : Rat) 5 (-1) 2 sampleGemv).2.Y (2 * |2|) = 88 := by
  obtain ⟨h1, h2, _⟩ := CNAME_contract 5 2 0 (3 : Rat) 5 (-1) 2 sampleGemv (by decide)
    (by decide)
  refine ⟨h1, ?_⟩
  rw [h2 2 (by decide) (by decide)]
  have e : Int.toNat 2 = 2 := rfl
  simp only [e, Finset.sum_range_succ, Finset.sum_range_zero, sampleGemv]
  norm_num

/-- C21: in every executed blocked iteration of a validated call (the loop
test holds at a panel start i >= 1), NB <= NX and i + NB <= min(M,N); hence
NB < min(M-i+1, N-i+1), both trailing-update dimensions M-i-NB+1 and
N-i-NB+1 are >= 1, and every copy-back index j in i..i+NB-1 satisfies
1 <= j <= min(M,N)-1, with A(j,j) and its off-diagonal neighbour (A(j,j+1)
when M >= N, A(j+1,j) when M < N) entries of the M-by-N matrix stored at
A(1,1). -/
theorem blocked_iteration_in_range (env : Env R) (m n lda lwork i : Int)
    (hlw : max (max 1 m) n ≤ lwork) (hi : 1 ≤ i)
    (ht : loopTest (blocking env m n lwork (f2cmax 1 (env.query c__1 m n))).nb i
      (f2cmin m n - (blocking env m n lwork (f2cmax 1 (env.query c__1 m n))).nx) = true) :
    (blocking env m n lwork (f2cmax 1 (env.query c__1 m n))).nb ≤
      (blocking env m n lwork (f2cmax 1 (env.query c__1 m n))).nx ∧
    i + (blocking env m n lwork (f2cmax 1 (env.query c__1 m n))).nb ≤ min m n ∧
    (blocking env m n lwork (f2cmax 1 (env.query c__1 m n))).nb <
      min (m - i + 1) (n - i + 1) ∧
    1 ≤ m - i - (blocking env m n lwork (f2cmax 1 (env.query c__1 m n))).nb + 1 ∧
    1 ≤ n - i - (blocking env m n lwork (f2cmax 1 (env.query c__1 m n))).nb + 1 ∧
    ∀ j, i ≤ j → j ≤ i + (blocking env m n lwork (f2cmax 1 (env.query c__1 m n))).nb - 1 →
      1 ≤ j ∧ j ≤ min m n - 1 ∧
      inSub lda (1 + 1 * lda) m n (j + j * lda) ∧
      inSub lda (1 + 1 * lda) m n (offDiag m n lda j) ∧
      (m ≥ n → offDiag m n lda j = j + (j + 1) * lda ∧ j + 1 ≤ n) ∧
      (m < n → offDiag m n lda j = j + 1 + j * lda ∧ j + 1 ≤ m) := by
  have hnb1 : (1 : Int) ≤ f2cmax 1 (env.query c__1 m n) := by
    rw [f2cmax_eq_max]; exact le_max_left _ _
  obtain ⟨_, hle, hnx⟩ := blocking_fits env m n lwork _ i hnb1 hlw hi ht
  generalize (blocking env m n lwork (f2cmax 1 (env.query c__1 m n))).nb = nb at hle
  generalize (blocking env m n lwork (f2cmax 1 (env.query c__1 m n))).nx = nx at hle hnx
  refine ⟨hle, by omega, by omega, by omega, by omega, ?_⟩
  intro j hj1 hj2
  refine ⟨by omega, by omega, ⟨j - 1, j - 1, by omega, by omega, by omega, by omega, by ring⟩,
    ?_, ?_, ?_⟩
  · unfold offDiag
    split_ifs with hmn
    · exact ⟨j - 1, j, by omega, by omega, by omega, by omega, by ring⟩
    · exact ⟨j, j - 1, by omega, by omega, by omega, by omega, by ring⟩
  · intro hmn
    unfold offDiag
    rw [if_pos hmn]
    exact ⟨rfl, by omega⟩
  · intro hmn
    unfold offDiag
    rw [if_neg (by omega)]
    exact ⟨rfl, by omega⟩

/-- Witness of C21 at M = N = 8, LDA = 8, LWORK = 40 with NB1 = 4, NX1 = 2,
NBMIN = 2: the first iteration (panel start 1) runs with NB = 2 <= NX = 4 and
1 + 2 <= 8. -/
theorem blocked_iteration_in_range_witness :
    (blocking smallEnv 8 8 40 (f2cmax 1 (smallEnv.query c__1 8 8))).nb = 2 ∧
      (blocking smallEnv 8 8 40 (f2cmax 1 (smallEnv.query c__1 8 8))).nx = 4 ∧
      loopTest (blocking smallEnv 8 8 40 (f2cmax 1 (smallEnv.query c__1 8 8))).nb 1
        (f2cmin 8 8 - (blocking smallEnv 8 8 40 (f2cmax 1 (smallEnv.query c__1 8 8))).nx)
        = true ∧
      1 + (blocking smallEnv 8 8 40 (f2cmax 1 (smallEnv.query c__1 8 8))).nb ≤ min 8 8 :=
  ⟨by decide, by decide, by decide,
    (blocked_iteration_in_range smallEnv 8 8 8 40 1 (by decide) (by decide) (by decide)).2.1⟩

/-- C26: the gemv_n kernel is insensitive to the sign of its increments: for
every input, the final memory (hence Y) and the return value with INCX
replaced by -INCX, or with INCY replaced by -INCY, are those of the original
call. -/
theorem CNAME_increment_sign {K : Type} [CommRing K] [DecidableEq K]
    (M N UNUSED : Int) (ALPHA : K) (LDA INCX INCY : Int) (mem : GemvMem K) :
    CNAME M N UNUSED ALPHA LDA (-INCX) INCY mem = CNAME M N UNUSED ALPHA LDA INCX INCY mem ∧
    CNAME M N UNUSED ALPHA LDA INCX (-INCY) mem = CNAME M N UNUSED ALPHA LDA INCX INCY mem ∧
    CNAME M N UNUSED ALPHA LDA INCX INCY mem = CNAME M N UNUSED ALPHA LDA |INCX| |INCY| mem := by
  refine ⟨?_, ?_, ?_⟩ <;>
    · unfold CNAME
      simp only [abs_increment, abs_neg, abs_abs]

/-- C27: for every M >= 0, every N, ALPHA non-zero and every increment, each
of the four specialised code paths of the gemv_n kernel (ALPHA == 1 or not,
INCY == 1 or not), a 4-way unrolled loop up to tMQ = M - (M mod 4) followed
by a remainder loop, computes in exact arithmetic the final Y of the plain
double loop `for j in 0..N-1, for i in 0..M-1:
Y[i*INCY] += ALPHA*A[LDA*j+i]*X[j*INCX]` run with the increments the path
runs with; so does the kernel, whose paths run with |INCX| and |INCY| (the
arguments themselves when they are non-negative).  In each column, whatever
the macro, the unrolled loop stops at row index tMQ and the remainder loop at
M, and the column pass is the plain loop over the rows 0..M-1 in order, also
when M < 4 or M is not a multiple of 4. -/
theorem CNAME_paths_eq_plain {K : Type} [CommRing K] [DecidableEq K] (M N UNUSED : Int)
    (ALPHA : K) (LDA INCX INCY : Int) (mem : GemvMem K) (hM : 0 ≤ M) (hA : ALPHA ≠ 0) :
    (∀ Y, columnLoop (fun j k => spec_loop_alpha1 mem.A mem.X LDA j k) M N INCX
        (M - Int.tmod M 4) 0 0 Y = plainCols 1 mem.A mem.X LDA INCX 1 M N 0 Y) ∧
    (∀ Y, columnLoop (fun j k => norm_loop_alpha1 mem.A mem.X LDA INCY j k) M N INCX
        (M - Int.tmod M 4) 0 0 Y = plainCols 1 mem.A mem.X LDA INCX INCY M N 0 Y) ∧
    (∀ Y, columnLoop (fun j k => spec_loop ALPHA mem.A mem.X LDA j k) M N INCX
        (M - Int.tmod M 4) 0 0 Y = plainCols ALPHA mem.A mem.X LDA INCX 1 M N 0 Y) ∧
    (∀ Y, columnLoop (fun j k => norm_loop ALPHA mem.A mem.X LDA INCY j k) M N INCX
        (M - Int.tmod M 4) 0 0 Y = plainCols ALPHA mem.A mem.X LDA INCX INCY M N 0 Y) ∧
    CNAME M N UNUSED ALPHA LDA INCX INCY mem =
      (0, { mem with Y := plainCols ALPHA mem.A mem.X LDA |INCX| |INCY| M N 0 mem.Y }) ∧
    (0 ≤ INCX → 0 ≤ INCY →
      CNAME M N UNUSED ALPHA LDA INCX INCY mem =
        (0, { mem with Y := plainCols ALPHA mem.A mem.X LDA INCX INCY M N 0 mem.Y })) ∧
    (∀ (body : LoopMacro K) (Y : Int → K),
      (unrolledLoop body (M - Int.tmod M 4) { i := 0, h := 0, Y := Y }).i =
        M - Int.tmod M 4 ∧
      (remainderLoop body M
        (unrolledLoop body (M - Int.tmod M 4) { i := 0, h := 0, Y := Y })).i = M) ∧
    (∀ (j k : Int) (Y : Int → K),
      (remainderLoop (norm_loop ALPHA mem.A mem.X LDA INCY j k) M
        (unrolledLoop (norm_loop ALPHA mem.A mem.X LDA INCY j k) (M - Int.tmod M 4)
          { i := 0, h := 0, Y := Y })).Y =
        plainRows ALPHA mem.A mem.X LDA INCY M j k 0 Y ∧
      (remainderLoop (spec_loop ALPHA mem.A mem.X LDA j k) M
        (unrolledLoop (spec_loop ALPHA mem.A mem.X LDA j k) (M - Int.tmod M 4)
          { i := 0, h := 0, Y := Y })).Y =
        plainRows ALPHA mem.A mem.X LDA 1 M j k 0 Y ∧
      (remainderLoop (norm_loop_alpha1 mem.A mem.X LDA INCY j k) M
        (unrolledLoop (norm_loop_alpha1 mem.A mem.X LDA INCY j k) (M - Int.tmod M 4)
          { i := 0, h := 0, Y := Y })).Y =
        plainRows 1 mem.A mem.X LDA INCY M j k 0 Y ∧
      (remainderLoop (spec_loop_alpha1 mem.A mem.X LDA j k) M
        (unrolledLoop (spec_loop_alpha1 mem.A mem.X LDA j k) (M - Int.tmod M 4)
          { i := 0, h := 0, Y := Y })).Y =
        plainRows 1 mem.A mem.X LDA 1 M j k 0 Y) := by
  refine ⟨?_, ?_, ?_, ?_, CNAME_eq_plain M N UNUSED ALPHA LDA INCX INCY mem hM hA, ?_,
    fun body Y => column_index body M hM Y, ?_⟩
  · intro Y
    exact columnLoop_plain (fun j k => spec_loop_alpha1 mem.A mem.X LDA j k) (fun _ => True) 1
      mem.A mem.X LDA INCX 1 M N (fun j => spec_loop_alpha1_simulates _ _ _ _ _)
      (fun _ => trivial) hM _ 0 0 Y rfl (by ring)
  · intro Y
    exact columnLoop_plain (fun j k => norm_loop_alpha1 mem.A mem.X LDA INCY j k)
      (fun s => s.h = s.i * INCY) 1
      mem.A mem.X LDA INCX INCY M N (fun j => norm_loop_alpha1_simulates _ _ _ _ _ _)
      (fun _ => by simp) hM _ 0 0 Y rfl (by ring)
  · intro Y
    exact columnLoop_plain (fun j k => spec_loop ALPHA mem.A mem.X LDA j k) (fun _ => True) ALPHA
      mem.A mem.X LDA INCX 1 M N (fun j => spec_loop_simulates _ _ _ _ _ _)
      (fun _ => trivial) hM _ 0 0 Y rfl (by ring)
  · intro Y
    exact columnLoop_plain (fun j k => norm_loop ALPHA mem.A mem.X LDA INCY j k)
      (fun s => s.h = s.i * INCY) ALPHA
      mem.A mem.X LDA INCX INCY M N (fun j => norm_loop_simulates _ _ _ _ _ _ _)
      (fun _ => by simp) hM _ 0 0 Y rfl (by ring)
  · intro hx hy
    rw [CNAME_eq_plain M N UNUSED ALPHA LDA INCX INCY mem hM hA, abs_of_nonneg hx,
      abs_of_nonneg hy]
  · intro j k Y
    exact ⟨column_plain _ (fun s => s.h = s.i * INCY) ALPHA mem.A mem.X LDA INCY M j k
        (norm_loop_simulates _ _ _ _ _ _ _) hM Y (by simp),
      column_plain _ (fun _ => True) ALPHA mem.A mem.X LDA 1 M j k
        (spec_loop_simulates _ _ _ _ _ _) hM Y trivial,
      column_plain _ (fun s => s.h = s.i * INCY) 1 mem.A mem.X LDA INCY M j k
        (norm_loop_alpha1_simulates _ _ _ _ _ _) hM Y (by simp),
      column_plain _ (fun _ => True) 1 mem.A mem.X LDA 1 M j k
        (spec_loop_alpha1_simulates _ _ _ _ _) hM Y trivial⟩

/-- Witness of C27 on the sample input with M = 3 (less than 4), N = 2,
ALPHA = 2, LDA = 3, INCX = 1, INCY = 1: the kernel leaves the Y of the plain
double loop, with Y[1] = Y_in[1] + 2*(A[1]*X[0] + A[4]*X[1]) = 10 + 2*(1 + 8)
= 28. -/
theorem CNAME_paths_eq_plain_witness :
    CNAME 3 2 0 (2 : Rat) 3 1 1 sampleGemv =
        (0, { sampleGemv with
              Y := plainCols 2 sampleGemv.A sampleGemv.X 3 1 1 3 2 0 sampleGemv.Y }) ∧
      (CNAME 3 2 0 (2 : Rat) 3 1 1 sampleGemv).2.Y (1 * 1) = 28 := by
  have h := (CNAME_paths_eq_plain 3 2 0 (2 : Rat) 3 1 1 sampleGemv (by decide)
    (by norm_num)).2.2.2.2.2.1 (by decide) (by decide)
  refine ⟨h, ?_⟩
  rw [h]
  obtain ⟨_, hin⟩ := plainCols_apply (2 : Rat) sampleGemv.A sampleGemv.X 3 1 1 3 2
    (by decide) _ 0 sampleGemv.Y rfl
  have hv := hin 1 (by decide) (by decide)
  simp only [] at hv ⊢
  rw [hv]
  have e : Int.toNat (2 - 0) = 2 := rfl
  simp only [e, Finset.sum_range_succ, Finset.sum_range_zero, sampleGemv]
  norm_num

end Claims

end OpenBLAS
